import Mathlib

/-!
Verification of the chunking-and-resilient-delivery pipeline of `app.py`
(PDF → audio converter).

Strings are modelled as `List Char`.  Python's `\s` and `\w` character
classes are modelled over their ASCII parts (`re` also matches further
Unicode characters; none of the verified properties depends on that).
Floating point configuration values (`base_pause`, `jitter`,
`per_chunk_delay`) and the backoff arithmetic are modelled over `ℚ`.
-/

/-- Characters matched by Python's `\s` (ASCII part): space, tab, newline,
carriage return, vertical tab, form feed. -/
def isPySpace (c : Char) : Bool :=
  c = ' ' || c = '\t' || c = '\n' || c = '\r' || c = '\x0b' || c = '\x0c'

/-- Characters matched by Python's `\w` (ASCII part): alphanumerics and
underscore. -/
def isWordChar (c : Char) : Bool :=
  c.isAlphanum || c = '_'

/-- Sentence-terminating characters of the lookbehind `(?<=[.!?])` in
`chunk_text_for_tts` (line 27 of `app.py`). -/
def isSentEnd (c : Char) : Bool :=
  c = '.' || c = '!' || c = '?'

/-- Python's `str.strip()`: remove leading and trailing whitespace. -/
def pyStrip (l : List Char) : List Char :=
  ((l.dropWhile isPySpace).reverse.dropWhile isPySpace).reverse

/-- `re.sub(r"(\w+)-\n(\w+)", r"\1\2", text)` — line 19 of `app.py`:
join hyphenated words split across a line break.  The scan is leftmost,
non-overlapping: after rewriting `W₁-\nW₂` to `W₁W₂` scanning resumes
after `W₂`, exactly as Python's `re.sub` does. -/
def subHyph (l : List Char) : List Char :=
  match l with
  | [] => []
  | c :: rest =>
    if hc : isWordChar c then
      match hr : (c :: rest).dropWhile isWordChar with
      | '-' :: '\n' :: r2 =>
        if r2.head?.any isWordChar then
          (c :: rest).takeWhile isWordChar ++ r2.takeWhile isWordChar ++
            subHyph (r2.dropWhile isWordChar)
        else
          (c :: rest).takeWhile isWordChar ++ subHyph ('-' :: '\n' :: r2)
      | r => (c :: rest).takeWhile isWordChar ++ subHyph r
  else
    c :: subHyph rest
termination_by l.length
decreasing_by
  · have h1 : ((c :: rest).dropWhile isWordChar).length < (c :: rest).length := by
      rw [List.dropWhile_cons_of_pos hc]
      exact Nat.lt_succ_of_le ((List.dropWhile_sublist _).length_le)
    rw [hr] at h1
    have h2 : (r2.dropWhile isWordChar).length ≤ r2.length :=
      (List.dropWhile_sublist _).length_le
    simp at h1
    simp
    omega
  · have h1 : ((c :: rest).dropWhile isWordChar).length < (c :: rest).length := by
      rw [List.dropWhile_cons_of_pos hc]
      exact Nat.lt_succ_of_le ((List.dropWhile_sublist _).length_le)
    rw [hr] at h1
    simp at h1 ⊢
    omega
  · have h1 : ((c :: rest).dropWhile isWordChar).length < (c :: rest).length := by
      rw [List.dropWhile_cons_of_pos hc]
      exact Nat.lt_succ_of_le ((List.dropWhile_sublist _).length_le)
    rw [hr] at h1
    simpa using h1
  · simp

/-- `re.sub(r"\n(?=[^\n])", " ", text)` — line 20 of `app.py`: replace each
newline that is immediately followed by a non-newline character with a
space (the lookahead character is not consumed). -/
def subNewline : List Char → List Char
  | [] => []
  | c :: rest =>
    (if c == '\n' && rest.head?.any (fun d => !(d == '\n')) then ' ' else c)
      :: subNewline rest

/-- `re.sub(r"\s+", " ", text)` — line 21 of `app.py`: replace every maximal
run of whitespace with a single space.  Rendered pointwise (structurally):
a whitespace character followed by more whitespace is dropped, and the last
whitespace character of each maximal run becomes the single `' '`. -/
def collapseWs : List Char → List Char
  | [] => []
  | [c] => if isPySpace c then [' '] else [c]
  | a :: b :: rest =>
    if isPySpace a && isPySpace b then collapseWs (b :: rest)
    else (if isPySpace a then ' ' else a) :: collapseWs (b :: rest)

/-- `clean_extracted` — lines 16–22 of `app.py`.  The text normalizer
(`normalize` in the specification). -/
def clean_extracted (l : List Char) : List Char :=
  if l = [] then []
  else pyStrip (collapseWs (subNewline (subHyph l)))

/-- One step of `re.split(r'(?<=[.!?])\s+', text)` — line 27 of `app.py` —
as a left-to-right scan.  `skip = true` while the whitespace run of a
boundary match is being consumed; `cur` is the current sentence, reversed.
A boundary is a whitespace character whose predecessor is `.`, `!` or `?`;
the whole whitespace run is consumed and retained in neither sentence. -/
def sentSplitGo : Bool → List Char → List Char → List (List Char)
  | _, cur, [] => [cur.reverse]
  | true, cur, c :: rest =>
    if isPySpace c then sentSplitGo true cur rest
    else sentSplitGo false (c :: cur) rest
  | false, cur, c :: rest =>
    if isPySpace c && (cur.head?.any isSentEnd) then
      cur.reverse :: sentSplitGo true [] rest
    else sentSplitGo false (c :: cur) rest

/-- `re.split(r'(?<=[.!?])\s+', text)` — line 27 of `app.py`. -/
def sentSplit (l : List Char) : List (List Char) :=
  sentSplitGo false [] l

/-- Fuel-driven rendering of the hard-split loop
`for i in range(0, len(s), max_chars): parts.append(s[i:i+max_chars].strip())`
— lines 36–37 of `app.py`.  Fuel `s.length` always suffices for `m ≥ 1`. -/
def hardSplitGo : Nat → Nat → List Char → List (List Char)
  | _, _, [] => []
  | 0, _, _ => []
  | fuel + 1, m, c :: rest =>
    pyStrip ((c :: rest).take m) :: hardSplitGo fuel m ((c :: rest).drop m)

/-- The hard-split path of `chunk_text_for_tts` (lines 34–38 of `app.py`):
split a sentence into consecutive `m`-character slices and strip each.
For `m = 0` Python's `range` raises `ValueError`; that call is unreachable
(the path requires `len(s) > max_chars ≥ 0` and the app passes
`max_chars ≥ 600`), and is modelled as the empty list. -/
def hardSplit (m : Nat) (s : List Char) : List (List Char) :=
  if m = 0 then [] else hardSplitGo s.length m s

/-- The sentence-accumulation loop of `chunk_text_for_tts`
(lines 29–44 of `app.py`): `cur` is the accumulator, the returned list is
`parts` (including the final flush of a non-empty `cur`). -/
def chunkGo (m : Nat) : List (List Char) → List Char → List (List Char)
  | [], cur => if cur = [] then [] else [cur]
  | s :: ss, cur =>
    if cur.length + s.length + 1 > m then
      (if cur = [] then [] else [pyStrip cur]) ++
        (if s.length > m then hardSplit m s ++ chunkGo m ss []
         else chunkGo m ss s)
    else chunkGo m ss (pyStrip (cur ++ ' ' :: s))

/-- `chunk_text_for_tts` — lines 24–45 of `app.py`.  The segmenter. -/
def chunk_text_for_tts (text : List Char) (max_chars : Nat) : List (List Char) :=
  if text = [] then []
  else chunkGo max_chars (sentSplit text) []

/-- Join a segment list with single spaces (the reconstruction operation the
specification's round-trip properties are stated with). -/
def joinSp : List (List Char) → List Char
  | [] => []
  | [p] => p
  | p :: q :: ps => p ++ ' ' :: joinSp (q :: ps)

/-- No two consecutive whitespace characters. -/
def NoWsRun (l : List Char) : Prop :=
  l.Chain' (fun a b => ¬(isPySpace a = true ∧ isPySpace b = true))

/-- Every whitespace character is a plain `' '`. -/
def SpaceOnlyWs (l : List Char) : Prop :=
  ∀ c ∈ l, isPySpace c = true → c = ' '

instance noWsRunDec : (l : List Char) → Decidable (NoWsRun l)
  | [] => isTrue List.chain'_nil
  | [c] => isTrue (List.chain'_singleton c)
  | a :: b :: rest =>
    haveI := noWsRunDec (b :: rest)
    decidable_of_iff (¬(isPySpace a = true ∧ isPySpace b = true) ∧ NoWsRun (b :: rest))
      ((List.chain'_cons
        (R := fun x y => ¬(isPySpace x = true ∧ isPySpace y = true))).symm)

instance (l : List Char) : Decidable (SpaceOnlyWs l) :=
  inferInstanceAs (Decidable (∀ c ∈ l, _))

/-- Output shape of the normalizer: stripped, no whitespace runs, and all
whitespace is `' '` (the `NormalizedText` invariant of the specification). -/
def Normalized (l : List Char) : Prop :=
  pyStrip l = l ∧ NoWsRun l ∧ SpaceOnlyWs l

example : clean_extracted ("  a\nb   c\t".toList) = ("a b c".toList) := by
  simp [clean_extracted, subHyph, subNewline, collapseWs, pyStrip, isPySpace, isWordChar]
example : sentSplit ("Sent one. Sent two?  x".toList) =
    [("Sent one.".toList), ("Sent two?".toList), ("x".toList)] := by decide
example : chunk_text_for_tts ("ab. cd.".toList) 3 = [("ab.".toList), ("cd.".toList)] := by decide
example : chunk_text_for_tts ("ab cd".toList) 2 =
    [("ab".toList), ("c".toList), ("d".toList)] := by decide
example : chunk_text_for_tts ("a b".toList) 1 =
    [("a".toList), ([] : List Char), ("b".toList)] := by decide

/-! ### Basic facts about `pyStrip` -/

theorem head_dropWhile_not {p : Char → Bool} :
    ∀ (l : List Char) (c : Char), (l.dropWhile p).head? = some c → p c = false := by
  intro l
  induction l with
  | nil => intro c h; simp [List.dropWhile] at h
  | cons a rest ih =>
    intro c h
    by_cases hp : p a
    · rw [List.dropWhile_cons_of_pos hp] at h
      exact ih c h
    · rw [List.dropWhile_cons_of_neg hp] at h
      simp at h
      subst h
      simpa using hp

theorem dropWhile_eq_self_of_head {p : Char → Bool} {l : List Char}
    (h : ∀ c, l.head? = some c → p c = false) : l.dropWhile p = l := by
  cases l with
  | nil => rfl
  | cons a rest =>
    have := h a (by simp)
    rw [List.dropWhile_cons_of_neg (by simp [this])]

theorem pyStrip_length_le (l : List Char) : (pyStrip l).length ≤ l.length := by
  unfold pyStrip
  calc ((l.dropWhile isPySpace).reverse.dropWhile isPySpace).reverse.length
      = ((l.dropWhile isPySpace).reverse.dropWhile isPySpace).length := by
        rw [List.length_reverse]
    _ ≤ (l.dropWhile isPySpace).reverse.length :=
        (List.dropWhile_sublist _).length_le
    _ = (l.dropWhile isPySpace).length := by rw [List.length_reverse]
    _ ≤ l.length := (List.dropWhile_sublist _).length_le

theorem mem_of_mem_pyStrip {c : Char} {l : List Char} (h : c ∈ pyStrip l) : c ∈ l := by
  unfold pyStrip at h
  rw [List.mem_reverse] at h
  have h1 := (List.dropWhile_sublist (l := (l.dropWhile isPySpace).reverse)
    (p := isPySpace)).subset h
  rw [List.mem_reverse] at h1
  exact (List.dropWhile_sublist (l := l) (p := isPySpace)).subset h1

theorem mem_dropWhile_of_not {p : Char → Bool} {c : Char} :
    ∀ {l : List Char}, c ∈ l → p c = false → c ∈ l.dropWhile p := by
  intro l
  induction l with
  | nil => intro h; simp at h
  | cons a rest ih =>
    intro h hc
    by_cases hp : p a
    · rw [List.dropWhile_cons_of_pos hp]
      rcases List.mem_cons.1 h with rfl | h'
      · rw [hp] at hc; cases hc
      · exact ih h' hc
    · rw [List.dropWhile_cons_of_neg hp]
      exact h

theorem pyStrip_ne_nil {c : Char} {l : List Char} (hm : c ∈ l)
    (hc : isPySpace c = false) : pyStrip l ≠ [] := by
  have h1 : c ∈ l.dropWhile isPySpace := mem_dropWhile_of_not hm hc
  have h2 : c ∈ (l.dropWhile isPySpace).reverse.dropWhile isPySpace :=
    mem_dropWhile_of_not (by rwa [List.mem_reverse]) hc
  unfold pyStrip
  intro hnil
  rw [List.reverse_eq_nil_iff] at hnil
  rw [hnil] at h2
  simp at h2

theorem pyStrip_eq_self {l : List Char}
    (hh : ∀ c, l.head? = some c → isPySpace c = false)
    (hl : ∀ c, l.getLast? = some c → isPySpace c = false) :
    pyStrip l = l := by
  unfold pyStrip
  rw [dropWhile_eq_self_of_head hh]
  rw [dropWhile_eq_self_of_head (by
    intro c h
    rw [List.head?_reverse] at h
    exact hl c h)]
  exact List.reverse_reverse l

theorem pyStrip_head? {l : List Char} {c : Char}
    (h : (pyStrip l).head? = some c) : isPySpace c = false := by
  unfold pyStrip at h
  rw [List.head?_reverse] at h
  -- the last element of `dropWhile isPySpace (reverse (dropWhile isPySpace l))`
  -- is the head of `dropWhile isPySpace l`, which is not whitespace
  set t := l.dropWhile isPySpace with ht
  rcases List.suffix_iff_eq_append.mp
    (List.dropWhile_suffix (l := t.reverse) (p := isPySpace)) with heq
  set u := t.reverse.dropWhile isPySpace with hu
  have hne : u ≠ [] := by
    intro h0
    rw [h0] at h
    simp at h
  have : (t.reverse.take (t.reverse.length - u.length) ++ u).getLast? = u.getLast? :=
    List.getLast?_append_of_ne_nil _ hne
  rw [heq] at this
  have h4 : t.reverse.getLast? = some c := this.trans h
  rw [List.getLast?_reverse] at h4
  exact head_dropWhile_not _ _ h4

theorem pyStrip_getLast? {l : List Char} {c : Char}
    (h : (pyStrip l).getLast? = some c) : isPySpace c = false := by
  unfold pyStrip at h
  rw [List.getLast?_reverse] at h
  exact head_dropWhile_not _ _ h

theorem pyStrip_idem (l : List Char) : pyStrip (pyStrip l) = pyStrip l :=
  pyStrip_eq_self (fun _ h => pyStrip_head? h) (fun _ h => pyStrip_getLast? h)

theorem head_not_ws_of_pyStrip_eq {l : List Char} (h : pyStrip l = l) :
    ∀ c, l.head? = some c → isPySpace c = false := by
  intro c hc
  by_contra hsp
  rw [Bool.not_eq_false] at hsp
  cases l with
  | nil => simp at hc
  | cons a rest =>
    simp at hc
    subst hc
    have h1 : (a :: rest).dropWhile isPySpace = rest.dropWhile isPySpace :=
      List.dropWhile_cons_of_pos hsp
    have h2 : (pyStrip (a :: rest)).length ≤ ((a :: rest).dropWhile isPySpace).length := by
      unfold pyStrip
      rw [List.length_reverse]
      calc ((((a :: rest).dropWhile isPySpace).reverse).dropWhile isPySpace).length
          ≤ (((a :: rest).dropWhile isPySpace).reverse).length :=
            (List.dropWhile_sublist _).length_le
        _ = (((a :: rest).dropWhile isPySpace)).length := List.length_reverse _
    rw [h1] at h2
    have h3 : (rest.dropWhile isPySpace).length ≤ rest.length :=
      (List.dropWhile_sublist _).length_le
    rw [h] at h2
    simp at h2
    omega

theorem getLast_not_ws_of_pyStrip_eq {l : List Char} (h : pyStrip l = l) :
    ∀ c, l.getLast? = some c → isPySpace c = false := by
  intro c hc
  apply pyStrip_getLast? (l := l)
  rw [h]
  exact hc

/-! ### Shape of the output of `collapseWs` -/

theorem collapseWs_head? :
    ∀ (rest : List Char) (c : Char),
      (collapseWs (c :: rest)).head? = some (if isPySpace c then ' ' else c) := by
  intro rest
  induction rest with
  | nil => intro c; by_cases h : isPySpace c <;> simp [collapseWs, h]
  | cons b r ih =>
    intro c
    by_cases hboth : isPySpace c && isPySpace b
    · rw [show collapseWs (c :: b :: r) = collapseWs (b :: r) by
        simp [collapseWs, hboth]]
      rw [ih b]
      simp at hboth
      simp [hboth.1, hboth.2]
    · rw [show collapseWs (c :: b :: r) =
        (if isPySpace c then ' ' else c) :: collapseWs (b :: r) by
        simp [collapseWs, hboth]]
      simp

theorem spaceOnlyWs_collapseWs : ∀ (l : List Char), SpaceOnlyWs (collapseWs l) := by
  intro l
  induction l with
  | nil => intro c hc; simp [collapseWs] at hc
  | cons a rest ih =>
    intro c hc hsp
    cases rest with
    | nil =>
      by_cases h : isPySpace a
      · simp [collapseWs, h] at hc
        subst hc
        rfl
      · simp [collapseWs, h] at hc
        subst hc
        exact absurd hsp h
    | cons b r =>
      by_cases hboth : isPySpace a && isPySpace b
      · rw [show collapseWs (a :: b :: r) = collapseWs (b :: r) by
          simp [collapseWs, hboth]] at hc
        exact ih c hc hsp
      · rw [show collapseWs (a :: b :: r) =
          (if isPySpace a then ' ' else a) :: collapseWs (b :: r) by
          simp [collapseWs, hboth]] at hc
        rcases List.mem_cons.1 hc with h | h
        · subst h
          by_cases ha : isPySpace a
          · simp [ha]
          · simp [ha] at hsp
        · exact ih c h hsp

theorem noWsRun_collapseWs : ∀ (l : List Char), NoWsRun (collapseWs l) := by
  intro l
  induction l with
  | nil => simp [collapseWs, NoWsRun]
  | cons a rest ih =>
    cases rest with
    | nil => by_cases h : isPySpace a <;> simp [collapseWs, h, NoWsRun]
    | cons b r =>
      by_cases hboth : isPySpace a && isPySpace b
      · rw [NoWsRun, show collapseWs (a :: b :: r) = collapseWs (b :: r) by
          simp [collapseWs, hboth]]
        exact ih
      · rw [NoWsRun, show collapseWs (a :: b :: r) =
          (if isPySpace a then ' ' else a) :: collapseWs (b :: r) by
          simp [collapseWs, hboth]]
        rw [List.chain'_cons']
        constructor
        · intro y hy
          rw [collapseWs_head? r b] at hy
          simp at hy
          subst hy
          intro hcon
          rcases hcon with ⟨h1, h2⟩
          by_cases ha : isPySpace a
          · by_cases hb : isPySpace b
            · exact hboth (by simp [ha, hb])
            · simp [hb] at h2
          · simp [ha] at h1
        · exact ih

theorem collapseWs_eq_self : ∀ (l : List Char), SpaceOnlyWs l → NoWsRun l →
    collapseWs l = l := by
  intro l
  induction l with
  | nil => intro _ _; rfl
  | cons a rest ih =>
    intro hso hnr
    cases rest with
    | nil =>
      by_cases h : isPySpace a
      · have := hso a (by simp) h
        simp [collapseWs, h, this]
      · simp [collapseWs, h]
    | cons b r =>
      have hnr' : NoWsRun (b :: r) := List.Chain'.tail hnr
      have hso' : SpaceOnlyWs (b :: r) := fun c hc => hso c (List.mem_cons_of_mem _ hc)
      have hnot : ¬(isPySpace a = true ∧ isPySpace b = true) := by
        rw [NoWsRun, List.chain'_cons] at hnr
        exact hnr.1
      have hboth : ¬(isPySpace a && isPySpace b) = true := by
        simp only [Bool.and_eq_true]
        exact hnot
      rw [show collapseWs (a :: b :: r) =
        (if isPySpace a then ' ' else a) :: collapseWs (b :: r) by
        simp [collapseWs, hboth]]
      rw [ih hso' hnr']
      by_cases ha : isPySpace a
      · have h2 := hso a (by simp) ha
        rw [if_pos ha, h2]
      · rw [if_neg ha]

/-! ### `pyStrip` preserves the normalized shape -/

theorem isSuffix_pyStrip_aux (l : List Char) :
    (pyStrip l).reverse <:+ (l.dropWhile isPySpace).reverse := by
  unfold pyStrip
  rw [List.reverse_reverse]
  exact List.dropWhile_suffix _

theorem noWsRun_of_append_right {l₁ l₂ : List Char} (h : NoWsRun (l₁ ++ l₂)) :
    NoWsRun l₂ :=
  (List.chain'_append.1 h).2.1

theorem noWsRun_of_append_left {l₁ l₂ : List Char} (h : NoWsRun (l₁ ++ l₂)) :
    NoWsRun l₁ :=
  (List.chain'_append.1 h).1

theorem noWsRun_of_suffix {l₁ l₂ : List Char} (hs : l₁ <:+ l₂) (h : NoWsRun l₂) :
    NoWsRun l₁ := by
  rcases hs with ⟨t, rfl⟩
  exact noWsRun_of_append_right h

theorem noWsRun_reverse {l : List Char} (h : NoWsRun l) : NoWsRun l.reverse := by
  rw [NoWsRun, List.chain'_reverse]
  rw [NoWsRun] at h
  apply List.Chain'.imp _ h
  intro a b hab
  simp only [flip]
  tauto

theorem noWsRun_pyStrip {l : List Char} (h : NoWsRun l) : NoWsRun (pyStrip l) := by
  have h1 : NoWsRun (l.dropWhile isPySpace) :=
    noWsRun_of_suffix (List.dropWhile_suffix _) h
  have h2 : NoWsRun ((l.dropWhile isPySpace).reverse) := noWsRun_reverse h1
  have h3 : NoWsRun ((pyStrip l).reverse) :=
    noWsRun_of_suffix (isSuffix_pyStrip_aux l) h2
  have := noWsRun_reverse h3
  rwa [List.reverse_reverse] at this

theorem spaceOnlyWs_pyStrip {l : List Char} (h : SpaceOnlyWs l) :
    SpaceOnlyWs (pyStrip l) :=
  fun c hc => h c (mem_of_mem_pyStrip hc)

/-! ### The normalizer's later passes are the identity on newline-free,
normalized text -/

theorem subNewline_eq_self : ∀ (l : List Char), '\n' ∉ l → subNewline l = l := by
  intro l
  induction l with
  | nil => intro _; rfl
  | cons a rest ih =>
    intro h
    have ha : (a == '\n') = false := by
      rw [beq_eq_false_iff_ne]
      intro hc
      subst hc
      exact h (List.mem_cons_self _ _)
    have hr : '\n' ∉ rest := fun hc => h (List.mem_cons_of_mem _ hc)
    show (if a == '\n' && rest.head?.any (fun d => !(d == '\n')) then ' ' else a)
      :: subNewline rest = a :: rest
    rw [ha]
    simp [ih hr]

theorem subHyph_step_word {c : Char} {rest : List Char} (hc : isWordChar c = true)
    (hno : ∀ (r2 : List Char), List.dropWhile isWordChar (c :: rest) ≠ '-' :: '\n' :: r2) :
    subHyph (c :: rest) =
      (c :: rest).takeWhile isWordChar ++ subHyph ((c :: rest).dropWhile isWordChar) := by
  conv_lhs => rw [subHyph.eq_def]
  split
  · rename_i heq
    cases heq
  · rename_i c2 rest2 heq
    injection heq with h1 h2
    subst h1
    subst h2
    rw [dif_pos hc]
    split
    · rename_i r2 heq2
      exact absurd heq2 (hno r2)
    · rfl

theorem subHyph_step_nonword {c : Char} {rest : List Char} (hc : ¬isWordChar c = true) :
    subHyph (c :: rest) = c :: subHyph rest := by
  conv_lhs => rw [subHyph.eq_def]
  split
  · rename_i heq
    cases heq
  · rename_i c2 rest2 heq
    injection heq with h1 h2
    subst h1
    subst h2
    rw [dif_neg hc]

theorem subHyph_eq_self : ∀ (l : List Char), '\n' ∉ l → subHyph l = l := by
  intro l
  induction l using subHyph.induct with
  | case1 =>
    intro _
    rw [subHyph.eq_def]
  | case2 c rest hc r2 hr hcond ih =>
    intro h
    exfalso
    have hm : '\n' ∈ List.dropWhile isWordChar (c :: rest) := by
      rw [hr]
      simp
    exact h ((List.dropWhile_sublist _).subset hm)
  | case3 c rest hc r2 hr hcond ih =>
    intro h
    exfalso
    have hm : '\n' ∈ List.dropWhile isWordChar (c :: rest) := by
      rw [hr]
      simp
    exact h ((List.dropWhile_sublist _).subset hm)
  | case4 c rest hc hno ih =>
    intro h
    have hdw : '\n' ∉ List.dropWhile isWordChar (c :: rest) :=
      fun hm => h ((List.dropWhile_sublist _).subset hm)
    rw [subHyph_step_word hc (fun r2 heq => hno r2 heq), ih hdw,
      List.takeWhile_append_dropWhile]
  | case5 c rest hc ih =>
    intro h
    rw [subHyph_step_nonword hc, ih (fun hm => h (List.mem_cons_of_mem _ hm))]

theorem no_newline_of_spaceOnlyWs {l : List Char} (h : SpaceOnlyWs l) : '\n' ∉ l := by
  intro hm
  exact absurd (h '\n' hm (by decide)) (by decide)

/-! ### Facts about the shape of `clean_extracted` output -/

theorem clean_extracted_eq {x : List Char} (hx : x ≠ []) :
    clean_extracted x = pyStrip (collapseWs (subNewline (subHyph x))) := by
  rw [clean_extracted, if_neg hx]

theorem normalized_clean_extracted (x : List Char) : Normalized (clean_extracted x) := by
  by_cases hx : x = []
  · subst hx
    exact ⟨rfl, List.chain'_nil, fun c hc => by simp [clean_extracted] at hc⟩
  · rw [clean_extracted_eq hx]
    refine ⟨pyStrip_idem _, ?_, ?_⟩
    · exact noWsRun_pyStrip (noWsRun_collapseWs _)
    · exact spaceOnlyWs_pyStrip (spaceOnlyWs_collapseWs _)

/-- Claim C8: the normalizer `clean_extracted` is idempotent:
`clean_extracted (clean_extracted x) = clean_extracted x` for every input. -/
theorem claim8_normalize_idempotent (x : List Char) :
    clean_extracted (clean_extracted x) = clean_extracted x := by
  by_cases hx : x = []
  · subst hx
    rfl
  · rcases normalized_clean_extracted x with ⟨hstrip, hnr, hso⟩
    by_cases hy : clean_extracted x = []
    · rw [hy]
      rfl
    · rw [clean_extracted_eq hy]
      have hnl : '\n' ∉ clean_extracted x := no_newline_of_spaceOnlyWs hso
      rw [subHyph_eq_self _ hnl, subNewline_eq_self _ hnl,
        collapseWs_eq_self _ hso hnr, hstrip]

/-! ### Claim C1: segments never exceed `max_chars` -/

theorem hardSplitGo_piece_le {m : Nat} :
    ∀ (fuel : Nat) (s : List Char), ∀ p ∈ hardSplitGo fuel m s, p.length ≤ m := by
  intro fuel
  induction fuel with
  | zero =>
    intro s p hp
    cases s <;> simp [hardSplitGo] at hp
  | succ fuel ih =>
    intro s p hp
    cases s with
    | nil => simp [hardSplitGo] at hp
    | cons c rest =>
      rw [hardSplitGo] at hp
      rcases List.mem_cons.1 hp with rfl | hp'
      · calc (pyStrip ((c :: rest).take m)).length
            ≤ ((c :: rest).take m).length := pyStrip_length_le _
          _ ≤ m := by
              rw [List.length_take]
              exact min_le_left _ _
      · exact ih _ p hp'

theorem hardSplit_piece_le {m : Nat} {s : List Char} :
    ∀ p ∈ hardSplit m s, p.length ≤ m := by
  intro p hp
  rw [hardSplit] at hp
  by_cases hm : m = 0
  · rw [if_pos hm] at hp
    simp at hp
  · rw [if_neg hm] at hp
    exact hardSplitGo_piece_le _ _ p hp

theorem chunkGo_piece_le (m : Nat) :
    ∀ (ss : List (List Char)) (cur : List Char), cur.length ≤ m →
      ∀ p ∈ chunkGo m ss cur, p.length ≤ m := by
  intro ss
  induction ss with
  | nil =>
    intro cur hcur p hp
    rw [chunkGo] at hp
    by_cases hc : cur = []
    · rw [if_pos hc] at hp
      simp at hp
    · rw [if_neg hc] at hp
      rcases List.mem_singleton.1 hp with rfl
      exact hcur
  | cons s ss ih =>
    intro cur hcur p hp
    rw [chunkGo] at hp
    by_cases hover : cur.length + s.length + 1 > m
    · rw [if_pos hover] at hp
      rcases List.mem_append.1 hp with hflush | hrest
      · by_cases hc : cur = []
        · rw [if_pos hc] at hflush
          simp at hflush
        · rw [if_neg hc] at hflush
          rcases List.mem_singleton.1 hflush with rfl
          exact le_trans (pyStrip_length_le _) hcur
      · by_cases hlong : s.length > m
        · rw [if_pos hlong] at hrest
          rcases List.mem_append.1 hrest with hhard | hgo
          · exact hardSplit_piece_le p hhard
          · exact ih [] (Nat.zero_le m) p hgo
        · rw [if_neg hlong] at hrest
          exact ih s (Nat.le_of_not_lt hlong) p hrest
    · rw [if_neg hover] at hp
      refine ih _ ?_ p hp
      calc (pyStrip (cur ++ ' ' :: s)).length
          ≤ (cur ++ ' ' :: s).length := pyStrip_length_le _
        _ = cur.length + s.length + 1 := by simp; omega
        _ ≤ m := by omega

/-- Claim C1: for every input string and every `max_chars ≥ 1`, every string
returned by the segmenter `chunk_text_for_tts` has length at most
`max_chars`. -/
theorem claim1_segment_length_le (text : List Char) (m : Nat) (hm : 1 ≤ m) :
    ∀ p ∈ chunk_text_for_tts text m, p.length ≤ m := by
  intro p hp
  rw [chunk_text_for_tts] at hp
  by_cases ht : text = []
  · rw [if_pos ht] at hp
    simp at hp
  · rw [if_neg ht] at hp
    exact chunkGo_piece_le m _ [] (Nat.zero_le m) p hp

/-- Witness for C1 at a concrete input. -/
theorem claim1_witness :
    1 ≤ 3 ∧ ("ab.".toList) ∈ chunk_text_for_tts ("ab. cd.".toList) 3 ∧
      ("ab.".toList).length ≤ 3 :=
  ⟨by decide, by decide,
    claim1_segment_length_le ("ab. cd.".toList) 3 (by decide) _ (by decide)⟩

/-! ### Properties of the sentence splitter -/

theorem isSentEnd_not_ws {c : Char} (h : isSentEnd c = true) : isPySpace c = false := by
  rw [isSentEnd] at h
  simp only [Bool.or_eq_true, decide_eq_true_eq] at h
  rcases h with (rfl | rfl) | rfl <;> decide

theorem sentSplitGo_ne_nil :
    ∀ (l : List Char) (mode : Bool) (cur : List Char), sentSplitGo mode cur l ≠ [] := by
  intro l
  induction l with
  | nil => intro mode cur; cases mode <;> simp [sentSplitGo]
  | cons c rest ih =>
    intro mode cur
    cases mode with
    | true =>
      have hgo : sentSplitGo true cur (c :: rest) =
          if isPySpace c then sentSplitGo true cur rest
          else sentSplitGo false (c :: cur) rest := rfl
      rw [hgo]
      by_cases h : isPySpace c
      · rw [if_pos h]; exact ih true cur
      · rw [if_neg h]; exact ih false (c :: cur)
    | false =>
      have hgo : sentSplitGo false cur (c :: rest) =
          if isPySpace c && (cur.head?.any isSentEnd) then
            cur.reverse :: sentSplitGo true [] rest
          else sentSplitGo false (c :: cur) rest := rfl
      rw [hgo]
      by_cases h : (isPySpace c && (cur.head?.any isSentEnd)) = true
      · rw [if_pos h]; simp
      · rw [if_neg h]; exact ih false (c :: cur)

theorem sentSplitGo_true_step (l : List Char)
    (hh : ∀ c, l.head? = some c → isPySpace c = false) :
    sentSplitGo true [] l = sentSplitGo false [] l := by
  cases l with
  | nil => rfl
  | cons c rest =>
    have hc : isPySpace c = false := hh c (by simp)
    have h1 : sentSplitGo true [] (c :: rest) = sentSplitGo false [c] rest := by
      have : sentSplitGo true ([] : List Char) (c :: rest) =
          if isPySpace c then sentSplitGo true [] rest
          else sentSplitGo false [c] rest := rfl
      rw [this, if_neg (by simp [hc])]
    have h2 : sentSplitGo false [] (c :: rest) = sentSplitGo false [c] rest := by
      have : sentSplitGo false ([] : List Char) (c :: rest) =
          if isPySpace c && (([] : List Char).head?.any isSentEnd) then
            List.reverse ([] : List Char) :: sentSplitGo true [] rest
          else sentSplitGo false [c] rest := rfl
      rw [this, if_neg (by simp)]
    rw [h1, h2]

theorem sentSplitGo_props :
    ∀ (l cur : List Char),
      cur.reverse ++ l ≠ [] →
      NoWsRun (cur.reverse ++ l) →
      (∀ c, (cur.reverse ++ l).head? = some c → isPySpace c = false) →
      (∀ c, (cur.reverse ++ l).getLast? = some c → isPySpace c = false) →
      ∀ s ∈ sentSplitGo false cur l,
        s ≠ [] ∧ NoWsRun s ∧
          (∀ c, s.head? = some c → isPySpace c = false) ∧
          (∀ c, s.getLast? = some c → isPySpace c = false) := by
  intro l
  induction l with
  | nil =>
    intro cur hne hch hh hl s hs
    rw [show sentSplitGo false cur [] = [cur.reverse] from rfl] at hs
    rcases List.mem_singleton.1 hs with rfl
    rw [List.append_nil] at hne hch hh hl
    exact ⟨hne, hch, hh, hl⟩
  | cons c rest ih =>
    intro cur hne hch hh hl s hs
    have hgo : sentSplitGo false cur (c :: rest) =
        if isPySpace c && (cur.head?.any isSentEnd) then
          cur.reverse :: sentSplitGo true [] rest
        else sentSplitGo false (c :: cur) rest := rfl
    rw [hgo] at hs
    by_cases hb : (isPySpace c && (cur.head?.any isSentEnd)) = true
    · rw [if_pos hb] at hs
      rw [Bool.and_eq_true] at hb
      obtain ⟨hcsp, hend⟩ := hb
      obtain ⟨d, hd, hdend⟩ : ∃ d, cur.head? = some d ∧ isSentEnd d = true := by
        cases cur with
        | nil => simp [Option.any] at hend
        | cons d cur' =>
          refine ⟨d, by simp, ?_⟩
          simpa [Option.any] using hend
      have hcur_ne : cur ≠ [] := by
        intro h0
        rw [h0] at hd
        simp at hd
      have hrev_ne : cur.reverse ≠ [] := by
        simpa using hcur_ne
      have hrest_head : ∀ e, rest.head? = some e → isPySpace e = false := by
        intro e he
        have h1 : NoWsRun (c :: rest) := noWsRun_of_append_right hch
        rw [NoWsRun, List.chain'_cons'] at h1
        have := h1.1 e (by rw [he]; rfl)
        by_contra hsp
        rw [Bool.not_eq_false] at hsp
        exact this ⟨hcsp, hsp⟩
      rcases List.mem_cons.1 hs with rfl | hs'
      · refine ⟨hrev_ne, ?_, ?_, ?_⟩
        · exact noWsRun_of_append_left hch
        · intro e he
          apply hh
          rw [List.head?_append_of_ne_nil _ hrev_ne]
          exact he
        · intro e he
          rw [List.getLast?_reverse] at he
          rw [hd] at he
          injection he with he
          subst he
          exact isSentEnd_not_ws hdend
      · rw [sentSplitGo_true_step rest hrest_head] at hs'
        have hrest_ne : rest ≠ [] := by
          intro h0
          subst h0
          have := hl c (by
            rw [@List.getLast?_append_of_ne_nil Char cur.reverse [c] (by simp)]
            rfl)
          rw [this] at hcsp
          cases hcsp
        refine ih [] ?_ ?_ ?_ ?_ s (by simpa using hs')
        · simpa using hrest_ne
        · have h1 : NoWsRun (c :: rest) := noWsRun_of_append_right hch
          show NoWsRun (List.reverse [] ++ rest)
          simp only [List.reverse_nil, List.nil_append]
          exact List.Chain'.tail h1
        · simpa using hrest_head
        · intro e he
          apply hl
          have h2 : (c :: rest).getLast? = rest.getLast? :=
            List.getLast?_append_of_ne_nil [c] hrest_ne
          rw [@List.getLast?_append_of_ne_nil Char cur.reverse (c :: rest) (by simp), h2]
          simpa using he
    · rw [if_neg hb] at hs
      have heq : (c :: cur).reverse ++ rest = cur.reverse ++ (c :: rest) := by
        simp
      refine ih (c :: cur) ?_ ?_ ?_ ?_ s hs
      · rw [heq]; exact hne
      · rw [heq]; exact hch
      · rw [heq]; exact hh
      · rw [heq]; exact hl

theorem sentSplit_props {text : List Char} (hne : text ≠ [])
    (hch : NoWsRun text)
    (hh : ∀ c, text.head? = some c → isPySpace c = false)
    (hl : ∀ c, text.getLast? = some c → isPySpace c = false) :
    ∀ s ∈ sentSplit text,
      s ≠ [] ∧ NoWsRun s ∧ pyStrip s = s ∧
        (∀ c, s.getLast? = some c → isPySpace c = false) := by
  intro s hs
  have h := sentSplitGo_props text [] (by simpa using hne) (by simpa using hch)
    (by simpa using hh) (by simpa using hl) s hs
  exact ⟨h.1, h.2.1, pyStrip_eq_self h.2.2.1 h.2.2.2, h.2.2.2⟩

/-! ### Claim C5: joining the segments reproduces the normalized input -/

theorem joinSp_cons {a : List Char} {L : List (List Char)} (h : L ≠ []) :
    joinSp (a :: L) = a ++ ' ' :: joinSp L := by
  cases L with
  | nil => exact absurd rfl h
  | cons q qs => rfl

theorem joinSp_glue (a b : List Char) (L : List (List Char)) :
    joinSp ((a ++ ' ' :: b) :: L) = joinSp (a :: b :: L) := by
  cases L with
  | nil => rfl
  | cons q qs =>
    show (a ++ ' ' :: b) ++ ' ' :: joinSp (q :: qs) = a ++ ' ' :: (b ++ ' ' :: joinSp (q :: qs))
    simp

theorem noWsRun_tail_pair {c : Char} {rest : List Char} (hnr : NoWsRun (c :: rest))
    (hcsp : isPySpace c = true) :
    ∀ e, rest.head? = some e → isPySpace e = false := by
  intro e he
  rw [NoWsRun, List.chain'_cons'] at hnr
  have := hnr.1 e (by rw [he]; rfl)
  by_contra hsp
  rw [Bool.not_eq_false] at hsp
  exact this ⟨hcsp, hsp⟩

theorem sentSplitGo_join :
    ∀ (l cur : List Char), SpaceOnlyWs l → NoWsRun l →
      joinSp (sentSplitGo false cur l) = cur.reverse ++ l := by
  intro l
  induction l with
  | nil =>
    intro cur _ _
    show joinSp [cur.reverse] = cur.reverse ++ []
    simp [joinSp]
  | cons c rest ih =>
    intro cur hso hnr
    have hso' : SpaceOnlyWs rest := fun e he hsp => hso e (List.mem_cons_of_mem _ he) hsp
    have hnr' : NoWsRun rest := List.Chain'.tail hnr
    have hgo : sentSplitGo false cur (c :: rest) =
        if isPySpace c && (cur.head?.any isSentEnd) then
          cur.reverse :: sentSplitGo true [] rest
        else sentSplitGo false (c :: cur) rest := rfl
    by_cases hb : (isPySpace c && (cur.head?.any isSentEnd)) = true
    · rw [hgo, if_pos hb]
      rw [Bool.and_eq_true] at hb
      have hcspc : c = ' ' := hso c (by simp) hb.1
      have hrest_head := noWsRun_tail_pair hnr hb.1
      rw [sentSplitGo_true_step rest hrest_head]
      rw [joinSp_cons (sentSplitGo_ne_nil rest false [])]
      rw [ih [] hso' hnr']
      rw [hcspc]
      simp
    · rw [hgo, if_neg hb]
      rw [ih (c :: cur) hso' hnr']
      simp

theorem sentSplit_join {text : List Char} (hso : SpaceOnlyWs text) (hnr : NoWsRun text) :
    joinSp (sentSplit text) = text := by
  have := sentSplitGo_join text [] hso hnr
  simpa [sentSplit] using this

theorem pyStrip_cons_space (s : List Char) : pyStrip (' ' :: s) = pyStrip s := by
  rw [pyStrip, pyStrip, List.dropWhile_cons_of_pos (by decide)]

theorem pyStrip_append_fixed {cur s : List Char} (hcur_ne : cur ≠ [])
    (hcur : pyStrip cur = cur) (hs_ne : s ≠ []) (hs : pyStrip s = s) :
    pyStrip (cur ++ ' ' :: s) = cur ++ ' ' :: s := by
  apply pyStrip_eq_self
  · intro c hc
    rw [List.head?_append_of_ne_nil _ hcur_ne] at hc
    exact head_not_ws_of_pyStrip_eq hcur c hc
  · intro c hc
    rw [List.getLast?_append_of_ne_nil _ (by simp)] at hc
    have h2 : (' ' :: s).getLast? = s.getLast? :=
      List.getLast?_append_of_ne_nil [' '] hs_ne
    rw [h2] at hc
    exact getLast_not_ws_of_pyStrip_eq hs c hc

theorem chunkGo_ne_nil (m : Nat) :
    ∀ (ss : List (List Char)) (cur : List Char), cur ≠ [] →
      (∀ s ∈ ss, s ≠ [] ∧ pyStrip s = s) →
      chunkGo m ss cur ≠ [] := by
  intro ss
  induction ss with
  | nil =>
    intro cur hcur _
    rw [chunkGo, if_neg hcur]
    simp
  | cons s ss ih =>
    intro cur hcur hss
    obtain ⟨hs_ne, hs_strip⟩ := hss s (by simp)
    have hss' : ∀ t ∈ ss, t ≠ [] ∧ pyStrip t = t :=
      fun t ht => hss t (List.mem_cons_of_mem _ ht)
    rw [chunkGo]
    by_cases hover : cur.length + s.length + 1 > m
    · rw [if_pos hover, if_neg hcur]
      simp only [List.cons_append, List.nil_append]
      intro h
      cases h
    · rw [if_neg hover]
      apply ih
      · obtain ⟨c, hc⟩ : ∃ c, s.getLast? = some c := by
          cases h2 : s.getLast? with
          | none => exact absurd (List.getLast?_eq_none_iff.1 h2) hs_ne
          | some c => exact ⟨c, rfl⟩
        apply pyStrip_ne_nil (c := c)
        · apply List.mem_append_right
          exact List.mem_cons_of_mem _ (List.mem_of_mem_getLast? (by rw [hc]; rfl))
        · exact getLast_not_ws_of_pyStrip_eq hs_strip c hc
      · exact hss'

theorem chunkGo_join (m : Nat) :
    ∀ (ss : List (List Char)) (cur : List Char),
      (∀ s ∈ ss, s ≠ [] ∧ pyStrip s = s ∧ s.length ≤ m) →
      pyStrip cur = cur →
      joinSp (chunkGo m ss cur) = if cur = [] then joinSp ss else joinSp (cur :: ss) := by
  intro ss
  induction ss with
  | nil =>
    intro cur _ _
    rw [chunkGo]
    by_cases hc : cur = []
    · rw [if_pos hc, if_pos hc]
    · rw [if_neg hc, if_neg hc]
  | cons s ss ih =>
    intro cur hss hcur
    obtain ⟨hs_ne, hs_strip, hs_le⟩ := hss s (by simp)
    have hss' : ∀ t ∈ ss, t ≠ [] ∧ pyStrip t = t ∧ t.length ≤ m :=
      fun t ht => hss t (List.mem_cons_of_mem _ ht)
    have hss'' : ∀ t ∈ ss, t ≠ [] ∧ pyStrip t = t :=
      fun t ht => ⟨(hss' t ht).1, (hss' t ht).2.1⟩
    rw [chunkGo]
    by_cases hover : cur.length + s.length + 1 > m
    · rw [if_pos hover]
      have hnotlong : ¬s.length > m := by omega
      rw [if_neg hnotlong]
      by_cases hc : cur = []
      · rw [if_pos hc, hc]
        simp only [List.nil_append]
        rw [ih s hss' hs_strip, if_neg hs_ne]
        simp
      · rw [if_neg hc]
        simp only [List.cons_append, List.nil_append]
        rw [joinSp_cons (chunkGo_ne_nil m ss s hs_ne hss'')]
        rw [ih s hss' hs_strip, if_neg hs_ne]
        rw [hcur]
        rw [if_neg hc, joinSp_cons (by simp : (s :: ss) ≠ [])]
    · rw [if_neg hover]
      by_cases hc : cur = []
      · subst hc
        simp only [List.nil_append]
        rw [pyStrip_cons_space, hs_strip]
        rw [ih s hss' hs_strip, if_neg hs_ne]
        simp
      · have hglue : pyStrip (cur ++ ' ' :: s) = cur ++ ' ' :: s :=
          pyStrip_append_fixed hc hcur hs_ne hs_strip
        rw [hglue]
        have hglue_ne : cur ++ ' ' :: s ≠ [] := by simp
        rw [ih (cur ++ ' ' :: s) hss' (by rw [hglue])]
        rw [if_neg hglue_ne, if_neg hc]
        rw [joinSp_glue]

/-- Claim C5: for normalized input text (shape of `clean_extracted` output)
and `max_chars ≥ 1`, when no sentence exceeds `max_chars`, joining the
segments of `chunk_text_for_tts` with single spaces reproduces the input
exactly. -/
theorem claim5_join_reproduces (text : List Char) (m : Nat) (hm : 1 ≤ m)
    (hnorm : Normalized text)
    (hfit : ∀ s ∈ sentSplit text, s.length ≤ m) :
    joinSp (chunk_text_for_tts text m) = text := by
  obtain ⟨hstrip, hnr, hso⟩ := hnorm
  by_cases ht : text = []
  · subst ht
    rfl
  · rw [chunk_text_for_tts, if_neg ht]
    have hprops := sentSplit_props ht hnr
      (head_not_ws_of_pyStrip_eq hstrip) (getLast_not_ws_of_pyStrip_eq hstrip)
    have h1 : ∀ s ∈ sentSplit text, s ≠ [] ∧ pyStrip s = s ∧ s.length ≤ m := by
      intro s hs
      obtain ⟨a, _, b, _⟩ := hprops s hs
      exact ⟨a, b, hfit s hs⟩
    rw [chunkGo_join m (sentSplit text) [] h1 rfl, if_pos rfl]
    exact sentSplit_join hso hnr

/-- Witness for C5 at a concrete normalized input. -/
theorem claim5_witness :
    Normalized ("Hi there. Bye.".toList) ∧
      (∀ s ∈ sentSplit ("Hi there. Bye.".toList), s.length ≤ 20) ∧
      joinSp (chunk_text_for_tts ("Hi there. Bye.".toList) 20) = "Hi there. Bye.".toList :=
  ⟨⟨by decide, by decide, by decide⟩, by decide,
    claim5_join_reproduces ("Hi there. Bye.".toList) 20 (by decide)
      ⟨by decide, by decide, by decide⟩ (by decide)⟩

/-! ### Claim C10: non-empty segments for normalized text and `max_chars ≥ 2` -/

theorem noWsRun_exists_nonspace {l : List Char} (hnr : NoWsRun l) (hlen : 2 ≤ l.length) :
    ∃ c ∈ l, isPySpace c = false := by
  match l, hlen with
  | a :: b :: rest, _ =>
    rw [NoWsRun, List.chain'_cons] at hnr
    by_cases ha : isPySpace a
    · by_cases hb : isPySpace b
      · exact absurd ⟨ha, hb⟩ hnr.1
      · exact ⟨b, by simp, by simpa using hb⟩
    · exact ⟨a, by simp, by simpa using ha⟩

theorem hardSplitGo_piece_ne_nil {m : Nat} (hm : 2 ≤ m) :
    ∀ (fuel : Nat) (s : List Char), s.length ≤ fuel → s ≠ [] → NoWsRun s →
      (∀ c, s.getLast? = some c → isPySpace c = false) →
      ∀ p ∈ hardSplitGo fuel m s, p ≠ [] := by
  intro fuel
  induction fuel with
  | zero =>
    intro s hsf hs _ _ p hp
    cases s with
    | nil => exact absurd rfl hs
    | cons c rest => simp at hsf
  | succ fuel ih =>
    intro s hsf hs hnr hlast p hp
    cases s with
    | nil => exact absurd rfl hs
    | cons c rest =>
      rw [hardSplitGo] at hp
      rcases List.mem_cons.1 hp with rfl | hp'
      · -- the first slice strips to a non-empty piece
        rcases Nat.lt_or_ge (c :: rest).length 2 with hshort | hlong
        · -- s = [c]; its only character is the last character, not whitespace
          have : rest = [] := by
            have : rest.length = 0 := by
              simp at hshort
              omega
            exact List.length_eq_zero.1 this
          subst this
          have hc : isPySpace c = false := hlast c rfl
          have : (c :: ([] : List Char)).take m = [c] := by
            cases m with
            | zero => omega
            | succ m => simp
          rw [this]
          exact pyStrip_ne_nil (by simp) hc
        · -- the slice keeps at least two adjacent characters, which cannot
          -- both be whitespace
          have htl : 2 ≤ ((c :: rest).take m).length := by
            rw [List.length_take]
            omega
          have htnr : NoWsRun ((c :: rest).take m) := by
            have := List.take_append_drop m (c :: rest)
            rw [← this] at hnr
            exact noWsRun_of_append_left hnr
          obtain ⟨d, hd, hdn⟩ := noWsRun_exists_nonspace htnr htl
          exact pyStrip_ne_nil hd hdn
      · -- recurse on the dropped remainder
        by_cases hdrop : (c :: rest).drop m = []
        · rw [hdrop] at hp'
          cases fuel <;> simp [hardSplitGo] at hp'
        · refine ih _ ?_ hdrop ?_ ?_ p hp'
          · have : ((c :: rest).drop m).length = (c :: rest).length - m := by
              simp
            omega
          · have := List.take_append_drop m (c :: rest)
            rw [← this] at hnr
            exact noWsRun_of_append_right hnr
          · intro e he
            apply hlast
            have := List.take_append_drop m (c :: rest)
            rw [← this, List.getLast?_append_of_ne_nil _ hdrop]
            exact he

theorem hardSplit_piece_ne_nil {m : Nat} {s : List Char} (hm : 2 ≤ m)
    (hs : s ≠ []) (hnr : NoWsRun s)
    (hlast : ∀ c, s.getLast? = some c → isPySpace c = false) :
    ∀ p ∈ hardSplit m s, p ≠ [] := by
  intro p hp
  rw [hardSplit, if_neg (by omega)] at hp
  exact hardSplitGo_piece_ne_nil hm s.length s le_rfl hs hnr hlast p hp

theorem chunkGo_pieces_ne_nil (m : Nat) (hm : 2 ≤ m) :
    ∀ (ss : List (List Char)) (cur : List Char),
      (∀ s ∈ ss, s ≠ [] ∧ NoWsRun s ∧ pyStrip s = s ∧
        (∀ c, s.getLast? = some c → isPySpace c = false)) →
      pyStrip cur = cur →
      ∀ p ∈ chunkGo m ss cur, p ≠ [] := by
  intro ss
  induction ss with
  | nil =>
    intro cur _ hcur p hp
    rw [chunkGo] at hp
    by_cases hc : cur = []
    · rw [if_pos hc] at hp
      simp at hp
    · rw [if_neg hc] at hp
      rcases List.mem_singleton.1 hp with rfl
      exact hc
  | cons s ss ih =>
    intro cur hss hcur p hp
    obtain ⟨hs_ne, hs_nr, hs_strip, hs_last⟩ := hss s (by simp)
    have hss' := fun t ht => hss t (List.mem_cons_of_mem s ht)
    rw [chunkGo] at hp
    by_cases hover : cur.length + s.length + 1 > m
    · rw [if_pos hover] at hp
      rcases List.mem_append.1 hp with hflush | hrest
      · by_cases hc : cur = []
        · rw [if_pos hc] at hflush
          simp at hflush
        · rw [if_neg hc] at hflush
          rcases List.mem_singleton.1 hflush with rfl
          rw [hcur]
          exact hc
      · by_cases hlong : s.length > m
        · rw [if_pos hlong] at hrest
          rcases List.mem_append.1 hrest with hhard | hgo
          · exact hardSplit_piece_ne_nil hm hs_ne hs_nr hs_last p hhard
          · exact ih [] hss' rfl p hgo
        · rw [if_neg hlong] at hrest
          exact ih s hss' hs_strip p hrest
    · rw [if_neg hover] at hp
      exact ih _ hss' (pyStrip_idem _) p hp

/-- Claim C10: for `max_chars ≥ 2` and normalized input (stripped, no
whitespace runs), every segment emitted by `chunk_text_for_tts` is
non-empty; and the bound `max_chars ≥ 2` is necessary — with
`max_chars = 1` the hard-split path emits the empty string on input
`"a b"` (the one-character slice `" "` is stripped to `""`). -/
theorem claim10_nonempty_segments :
    (∀ (text : List Char) (m : Nat), 2 ≤ m → pyStrip text = text → NoWsRun text →
      ∀ p ∈ chunk_text_for_tts text m, p ≠ []) ∧
      ([] : List Char) ∈ chunk_text_for_tts ("a b".toList) 1 := by
  constructor
  · intro text m hm hstrip hnr p hp
    rw [chunk_text_for_tts] at hp
    by_cases ht : text = []
    · rw [if_pos ht] at hp
      simp at hp
    · rw [if_neg ht] at hp
      have hprops := sentSplit_props ht hnr
        (head_not_ws_of_pyStrip_eq hstrip) (getLast_not_ws_of_pyStrip_eq hstrip)
      refine chunkGo_pieces_ne_nil m hm (sentSplit text) [] ?_ rfl p hp
      intro s hs
      obtain ⟨a, b, c, d⟩ := hprops s hs
      exact ⟨a, b, c, d⟩
  · decide

/-- Witness for C10's universally quantified part at a concrete input. -/
theorem claim10_witness :
    2 ≤ 3 ∧ pyStrip ("a b".toList) = "a b".toList ∧ NoWsRun ("a b".toList) ∧
      ("a b".toList ∈ chunk_text_for_tts ("a b".toList) 3 ∧ "a b".toList ≠ []) :=
  ⟨by decide, by decide, by decide,
    by decide,
    claim10_nonempty_segments.1 ("a b".toList) 3 (by decide) (by decide) (by decide)
      _ (by decide)⟩

/-! ### Claim C4: the hard-split path -/

theorem pyStrip_eq_self_of_no_ws {l : List Char} (h : ∀ c ∈ l, isPySpace c = false) :
    pyStrip l = l :=
  pyStrip_eq_self
    (fun c hc => h c (List.mem_of_mem_head? (by rw [hc]; rfl)))
    (fun c hc => h c (List.mem_of_mem_getLast? (by rw [hc]; rfl)))

theorem drop_length_le_fuel {m fuel : Nat} {c : Char} {rest : List Char}
    (hsf : (c :: rest).length ≤ fuel + 1) (hm : 1 ≤ m) :
    ((c :: rest).drop m).length ≤ fuel := by
  have hdl : ((c :: rest).drop m).length = (c :: rest).length - m := by simp
  rw [hdl]
  simp only [List.length_cons] at hsf ⊢
  omega

theorem hardSplitGo_length {m : Nat} (hm : 1 ≤ m) :
    ∀ (fuel : Nat) (s : List Char), s.length ≤ fuel →
      (hardSplitGo fuel m s).length = (s.length + m - 1) / m := by
  intro fuel
  induction fuel with
  | zero =>
    intro s hsf
    have hs0 : s = [] := List.length_eq_zero.1 (by omega)
    subst hs0
    show (0 : Nat) = (0 + m - 1) / m
    rw [Nat.div_eq_of_lt (by omega)]
  | succ fuel ih =>
    intro s hsf
    cases s with
    | nil =>
      show (0 : Nat) = (0 + m - 1) / m
      rw [Nat.div_eq_of_lt (by omega)]
    | cons c rest =>
      rw [hardSplitGo]
      have hdl : ((c :: rest).drop m).length = (c :: rest).length - m := by simp
      rw [List.length_cons, ih _ (drop_length_le_fuel hsf hm), hdl]
      have hL1 : 1 ≤ (c :: rest).length := by simp
      rcases Nat.lt_or_ge (c :: rest).length (m + 1) with hle | hgt
      · have h0 : (c :: rest).length - m = 0 := by omega
        rw [h0, Nat.div_eq_of_lt (by omega)]
        have h2 : ((c :: rest).length + m - 1) / m = 1 :=
          Nat.div_eq_of_lt_le (by omega) (by omega)
        omega
      · have h1 : (c :: rest).length + m - 1 = ((c :: rest).length - m + m - 1) + m := by
          omega
        rw [h1, Nat.add_div_right _ (by omega)]

theorem hardSplitGo_join {m : Nat} (hm : 1 ≤ m) :
    ∀ (fuel : Nat) (s : List Char), s.length ≤ fuel →
      (∀ c ∈ s, isPySpace c = false) →
      (hardSplitGo fuel m s).flatten = s := by
  intro fuel
  induction fuel with
  | zero =>
    intro s hsf _
    have hs0 : s = [] := List.length_eq_zero.1 (by omega)
    subst hs0
    rfl
  | succ fuel ih =>
    intro s hsf hno
    cases s with
    | nil => rfl
    | cons c rest =>
      rw [hardSplitGo, List.flatten_cons]
      rw [pyStrip_eq_self_of_no_ws
        (fun d hd => hno d (List.take_subset m (c :: rest) hd))]
      rw [ih _ (drop_length_le_fuel hsf hm)
        (fun d hd => hno d (List.drop_subset m (c :: rest) hd))]
      exact List.take_append_drop m (c :: rest)

theorem hardSplitGo_dropLast {m : Nat} (hm : 1 ≤ m) :
    ∀ (fuel : Nat) (s : List Char), s.length ≤ fuel →
      (∀ c ∈ s, isPySpace c = false) →
      ∀ p ∈ (hardSplitGo fuel m s).dropLast, p.length = m := by
  intro fuel
  induction fuel with
  | zero =>
    intro s hsf _ p hp
    have hs0 : s = [] := List.length_eq_zero.1 (by omega)
    subst hs0
    simp [hardSplitGo] at hp
  | succ fuel ih =>
    intro s hsf hno p hp
    cases s with
    | nil => simp [hardSplitGo] at hp
    | cons c rest =>
      rw [hardSplitGo] at hp
      by_cases hdrop : (c :: rest).drop m = []
      · rw [hdrop] at hp
        have hnil : hardSplitGo fuel m ([] : List Char) = [] := by
          cases fuel <;> rfl
        rw [hnil] at hp
        simp at hp
      · have hrec_ne : hardSplitGo fuel m ((c :: rest).drop m) ≠ [] := by
          rcases List.exists_cons_of_ne_nil hdrop with ⟨d, t, hdt⟩
          cases fuel with
          | zero =>
            exfalso
            have h2 := @drop_length_le_fuel m 0 c rest hsf hm
            rw [hdt] at h2
            simp at h2
          | succ fuel =>
            rw [hdt]
            simp [hardSplitGo]
        rcases List.exists_cons_of_ne_nil hrec_ne with ⟨q, qs, hqqs⟩
        rw [hqqs] at hp
        rw [show (pyStrip ((c :: rest).take m) :: q :: qs).dropLast =
          pyStrip ((c :: rest).take m) :: (q :: qs).dropLast from rfl] at hp
        rcases List.mem_cons.1 hp with rfl | hp'
        · rw [pyStrip_eq_self_of_no_ws
            (fun d hd => hno d (List.take_subset m (c :: rest) hd))]
          rw [List.length_take]
          have hlt : m < (c :: rest).length := by
            by_contra hcon
            exact hdrop (List.drop_eq_nil_of_le (by omega))
          omega
        · rw [← hqqs] at hp'
          exact ih _ (drop_length_le_fuel hsf hm)
            (fun d hd => hno d (List.drop_subset m (c :: rest) hd)) p hp'

/-- Counterexample to Claim C4 as stated: the code strips each slice
(line 37 of `app.py`: `s[i:i+max_chars].strip()`), so on the sentence
`"ab cd"` with `max_chars = 2` the middle emitted piece is `"c"` (length 1,
not 2, yet not the last piece), and the concatenation of the pieces is
`"abcd"`, not the original sentence. -/
theorem claim4_counterexample :
    chunk_text_for_tts ("ab cd".toList) 2 = hardSplit 2 ("ab cd".toList) ∧
      hardSplit 2 ("ab cd".toList) =
        [("ab".toList), ("c".toList), ("d".toList)] ∧
      (hardSplit 2 ("ab cd".toList)).flatten ≠ "ab cd".toList ∧
      ¬(∀ p ∈ (hardSplit 2 ("ab cd".toList)).dropLast, p.length = 2) := by
  refine ⟨by decide, by decide, by decide, ?_⟩
  intro h
  have h2 := h ("c".toList) (by decide)
  simp at h2

/-- Claim C4 (amended): for `max_chars ≥ 1` and a sentence longer than
`max_chars`, the hard-split path emits exactly `⌈L / max_chars⌉` pieces,
each of length at most `max_chars`; each piece is the corresponding
`max_chars`-slice with leading/trailing whitespace stripped, so when the
sentence contains no whitespace every piece except possibly the last has
length exactly `max_chars` and the concatenation of the pieces equals the
original sentence. -/
theorem claim4_hardsplit_amended (m : Nat) (s : List Char) (hm : 1 ≤ m)
    (hlong : m < s.length) :
    (hardSplit m s).length = (s.length + m - 1) / m ∧
      (∀ p ∈ hardSplit m s, p.length ≤ m) ∧
      ((∀ c ∈ s, isPySpace c = false) →
        (hardSplit m s).flatten = s ∧
          ∀ p ∈ (hardSplit m s).dropLast, p.length = m) := by
  rw [hardSplit, if_neg (by omega)]
  refine ⟨hardSplitGo_length hm s.length s le_rfl, ?_, fun hno => ⟨?_, ?_⟩⟩
  · exact hardSplitGo_piece_le s.length s
  · exact hardSplitGo_join hm s.length s le_rfl hno
  · exact hardSplitGo_dropLast hm s.length s le_rfl hno

/-- Witness for the amended C4 at a concrete input. -/
theorem claim4_witness :
    1 ≤ 2 ∧ 2 < ("abcde".toList).length ∧
      (hardSplit 2 ("abcde".toList)).length = (("abcde".toList).length + 2 - 1) / 2 ∧
      (hardSplit 2 ("abcde".toList)).flatten = "abcde".toList :=
  ⟨by decide, by decide,
    (claim4_hardsplit_amended 2 ("abcde".toList) (by decide) (by decide)).1,
    ((claim4_hardsplit_amended 2 ("abcde".toList) (by decide) (by decide)).2.2
      (by decide)).1⟩

/-! ### The resilient synthesizer `generate_gtts_parts` (lines 48–96 of
`app.py`)

The remote call `gTTS(chunk, lang='en'); t.save(out_path)` is modelled as a
scripted outcome `script idx attempt` (`idx` is the 1-based segment index of
`enumerate(parts, start=1)`, `attempt` the 1-based attempt number): either
it succeeds, or it raises a `gTTSError` with a message, or it raises any
other exception with a message.  `random.uniform(0, hi)` is modelled as a
scripted function `U idx attempt hi`.  The audio output written to
`part_{idx:03d}.mp3` is represented by the index `idx` that determines the
path.  Sleeps are not observable in a pure model; the backoff waits that
would be passed to `time.sleep` are recorded in a per-segment trace, and
the `per_chunk_delay` slept after a success is recorded in `post`. -/

inductive CallOutcome where
  | ok : CallOutcome
  | gttsErr : List Char → CallOutcome
  | exc : List Char → CallOutcome
deriving DecidableEq

inductive TtsError where
  | gtts : List Char → TtsError
  | exc : List Char → TtsError
deriving DecidableEq

/-- The error stored in `last_err` by a failing attempt (`None` on success). -/
def errOf : CallOutcome → Option TtsError
  | CallOutcome.ok => none
  | CallOutcome.gttsErr msg => some (TtsError.gtts msg)
  | CallOutcome.exc msg => some (TtsError.exc msg)

/-- Python's `sub in msg` substring test. -/
def containsSub (pat : List Char) : List Char → Bool
  | [] => pat.isEmpty
  | c :: rest => pat.isPrefixOf (c :: rest) || containsSub pat rest

/-- Line 83 of `app.py`: `'429' in msg or 'Too Many Requests' in msg`. -/
def isRateLimitMsg (msg : List Char) : Bool :=
  containsSub ("429".toList) msg || containsSub ("Too Many Requests".toList) msg

/-- The keyword configuration of `generate_gtts_parts` (defaults
`retries=6`, `base_pause=1.5`, `jitter=1.0`, `per_chunk_delay=0.8`). -/
structure Config where
  retries : Nat
  basePause : ℚ
  jitter : ℚ
  perChunkDelay : ℚ
deriving DecidableEq

/-- The backoff computed for a failed attempt `a` — lines 84, 86 and 91 of
`app.py`: `base_pause * (2 ** attempt) + random.uniform(0, jitter * 2)` for
a rate-limited `gTTSError`, `base_pause * (2 ** (attempt - 1)) +
random.uniform(0, jitter)` for any other failure. -/
def backoffWait (cfg : Config) (U : Nat → Nat → ℚ → ℚ) (idx a : Nat) :
    CallOutcome → ℚ
  | CallOutcome.gttsErr msg =>
    if isRateLimitMsg msg then cfg.basePause * 2 ^ a + U idx a (cfg.jitter * 2)
    else cfg.basePause * 2 ^ (a - 1) + U idx a cfg.jitter
  | CallOutcome.exc _ => cfg.basePause * 2 ^ (a - 1) + U idx a cfg.jitter
  | CallOutcome.ok => 0

/-- How the attempt loop for one segment can end: `success` (break after
appending the output), `exhausted e` (`last_err = e ≠ None` after the loop,
so line 95 raises), or `skipped` (the loop body never ran because
`retries = 0`: no output and no raise). -/
inductive SegOutcome where
  | success : SegOutcome
  | exhausted : TtsError → SegOutcome
  | skipped : SegOutcome
deriving DecidableEq

/-- Observable record of one segment's attempt loop. -/
structure SegTrace where
  attempts : Nat
  waits : List ℚ
  post : Option ℚ
  outcome : SegOutcome
deriving DecidableEq

/-- The attempt loop `for attempt in range(1, retries + 1)` — lines 71–93 of
`app.py` — starting at attempt `a` with `rem` attempts remaining. -/
def segLoopGo (cfg : Config) (script : Nat → Nat → CallOutcome)
    (U : Nat → Nat → ℚ → ℚ) (idx : Nat) : Nat → Nat → SegTrace
  | _, 0 => ⟨0, [], none, SegOutcome.skipped⟩
  | a, 1 =>
    match script idx a with
    | CallOutcome.ok => ⟨1, [], some cfg.perChunkDelay, SegOutcome.success⟩
    | CallOutcome.gttsErr msg =>
      ⟨1, [backoffWait cfg U idx a (CallOutcome.gttsErr msg)], none,
        SegOutcome.exhausted (TtsError.gtts msg)⟩
    | CallOutcome.exc msg =>
      ⟨1, [backoffWait cfg U idx a (CallOutcome.exc msg)], none,
        SegOutcome.exhausted (TtsError.exc msg)⟩
  | a, rem + 2 =>
    match script idx a with
    | CallOutcome.ok => ⟨1, [], some cfg.perChunkDelay, SegOutcome.success⟩
    | CallOutcome.gttsErr msg =>
      let t := segLoopGo cfg script U idx (a + 1) (rem + 1)
      ⟨t.attempts + 1, backoffWait cfg U idx a (CallOutcome.gttsErr msg) :: t.waits,
        t.post, t.outcome⟩
    | CallOutcome.exc msg =>
      let t := segLoopGo cfg script U idx (a + 1) (rem + 1)
      ⟨t.attempts + 1, backoffWait cfg U idx a (CallOutcome.exc msg) :: t.waits,
        t.post, t.outcome⟩

/-- The whole attempt loop for segment `idx`. -/
def segLoop (cfg : Config) (script : Nat → Nat → CallOutcome)
    (U : Nat → Nat → ℚ → ℚ) (idx : Nat) : SegTrace :=
  segLoopGo cfg script U idx 1 cfg.retries

/-- The `RuntimeError(f"gTTS failed for chunk {idx} after {retries}
attempts: {last_err}")` of line 95, as structured data. -/
structure BatchError where
  idx : Nat
  retries : Nat
  lastErr : TtsError
deriving DecidableEq

/-- The outer loop `for idx, chunk in enumerate(parts, start=1)` — lines
68–95 of `app.py`.  Returns the per-segment traces together with either the
ordered output list (`out_paths`, each output named by its index) or the
raised `BatchError`. -/
def goParts (cfg : Config) (script : Nat → Nat → CallOutcome)
    (U : Nat → Nat → ℚ → ℚ) :
    Nat → List (List Char) → List SegTrace × Except BatchError (List Nat)
  | _, [] => ([], Except.ok [])
  | idx, _ :: ps =>
    let t := segLoop cfg script U idx
    match t.outcome with
    | SegOutcome.success =>
      let r := goParts cfg script U (idx + 1) ps
      (t :: r.1, r.2.map (fun l => idx :: l))
    | SegOutcome.exhausted e =>
      ([t], Except.error ⟨idx, cfg.retries, e⟩)
    | SegOutcome.skipped =>
      let r := goParts cfg script U (idx + 1) ps
      (t :: r.1, r.2)

/-- `generate_gtts_parts` — lines 48–96 of `app.py` (`synthesizeAll` in the
specification). -/
def generate_gtts_parts (cfg : Config) (script : Nat → Nat → CallOutcome)
    (U : Nat → Nat → ℚ → ℚ) (text : List Char) (max_chars_per_call : Nat) :
    List SegTrace × Except BatchError (List Nat) :=
  if text = [] then ([], Except.ok [])
  else goParts cfg script U 1 (chunk_text_for_tts text max_chars_per_call)

/-! ### Behaviour of the per-segment attempt loop -/

theorem errOf_eq_none {o : CallOutcome} : errOf o = none ↔ o = CallOutcome.ok := by
  cases o <;> simp [errOf]

theorem segLoopGo_one (cfg : Config) (script : Nat → Nat → CallOutcome)
    (U : Nat → Nat → ℚ → ℚ) (idx a : Nat) :
    segLoopGo cfg script U idx a 1 =
      match script idx a with
      | CallOutcome.ok => ⟨1, [], some cfg.perChunkDelay, SegOutcome.success⟩
      | CallOutcome.gttsErr msg =>
        ⟨1, [backoffWait cfg U idx a (CallOutcome.gttsErr msg)], none,
          SegOutcome.exhausted (TtsError.gtts msg)⟩
      | CallOutcome.exc msg =>
        ⟨1, [backoffWait cfg U idx a (CallOutcome.exc msg)], none,
          SegOutcome.exhausted (TtsError.exc msg)⟩ := rfl

theorem segLoopGo_step (cfg : Config) (script : Nat → Nat → CallOutcome)
    (U : Nat → Nat → ℚ → ℚ) (idx a rem : Nat) :
    segLoopGo cfg script U idx a (rem + 2) =
      match script idx a with
      | CallOutcome.ok => ⟨1, [], some cfg.perChunkDelay, SegOutcome.success⟩
      | CallOutcome.gttsErr msg =>
        ⟨(segLoopGo cfg script U idx (a + 1) (rem + 1)).attempts + 1,
          backoffWait cfg U idx a (CallOutcome.gttsErr msg) ::
            (segLoopGo cfg script U idx (a + 1) (rem + 1)).waits,
          (segLoopGo cfg script U idx (a + 1) (rem + 1)).post,
          (segLoopGo cfg script U idx (a + 1) (rem + 1)).outcome⟩
      | CallOutcome.exc msg =>
        ⟨(segLoopGo cfg script U idx (a + 1) (rem + 1)).attempts + 1,
          backoffWait cfg U idx a (CallOutcome.exc msg) ::
            (segLoopGo cfg script U idx (a + 1) (rem + 1)).waits,
          (segLoopGo cfg script U idx (a + 1) (rem + 1)).post,
          (segLoopGo cfg script U idx (a + 1) (rem + 1)).outcome⟩ := rfl

theorem segLoopGo_not_skipped (cfg : Config) (script : Nat → Nat → CallOutcome)
    (U : Nat → Nat → ℚ → ℚ) (idx : Nat) :
    ∀ (rem a : Nat), 1 ≤ rem →
      (segLoopGo cfg script U idx a rem).outcome ≠ SegOutcome.skipped := by
  intro rem
  induction rem using Nat.strong_induction_on with
  | _ rem ih =>
    intro a hrem
    match rem, hrem with
    | 1, _ =>
      cases hsc : script idx a <;> simp [segLoopGo_one, hsc]
    | r + 2, _ =>
      cases hsc : script idx a
      · simp [segLoopGo_step, hsc]
      · simp [segLoopGo_step, hsc]
        exact ih (r + 1) (by omega) (a + 1) (by omega)
      · simp [segLoopGo_step, hsc]
        exact ih (r + 1) (by omega) (a + 1) (by omega)

theorem segLoopGo_all_fail (cfg : Config) (script : Nat → Nat → CallOutcome)
    (U : Nat → Nat → ℚ → ℚ) (idx : Nat) :
    ∀ (rem a : Nat), 1 ≤ rem →
      (∀ b, a ≤ b → b < a + rem → errOf (script idx b) ≠ none) →
      ∃ e, errOf (script idx (a + rem - 1)) = some e ∧
        (segLoopGo cfg script U idx a rem).outcome = SegOutcome.exhausted e ∧
        (segLoopGo cfg script U idx a rem).attempts = rem ∧
        (segLoopGo cfg script U idx a rem).waits.length = rem := by
  intro rem
  induction rem using Nat.strong_induction_on with
  | _ rem ih =>
    intro a hrem hfail
    match rem, hrem with
    | 1, _ =>
      have hfa : errOf (script idx a) ≠ none := hfail a le_rfl (by omega)
      cases hsc : script idx a with
      | ok => rw [hsc] at hfa; simp [errOf] at hfa
      | gttsErr msg =>
        refine ⟨TtsError.gtts msg, ?_, ?_, ?_, ?_⟩ <;>
          simp [segLoopGo_one, hsc, errOf, Nat.add_sub_cancel]
      | exc msg =>
        refine ⟨TtsError.exc msg, ?_, ?_, ?_, ?_⟩ <;>
          simp [segLoopGo_one, hsc, errOf, Nat.add_sub_cancel]
    | r + 2, _ =>
      have hfa : errOf (script idx a) ≠ none := hfail a le_rfl (by omega)
      have hrec := ih (r + 1) (by omega) (a + 1) (by omega)
        (fun b hb1 hb2 => hfail b (by omega) (by omega))
      obtain ⟨e, he1, he2, he3, he4⟩ := hrec
      have hidx : a + 1 + (r + 1) - 1 = a + (r + 2) - 1 := by omega
      rw [hidx] at he1
      cases hsc : script idx a with
      | ok => rw [hsc] at hfa; simp [errOf] at hfa
      | gttsErr msg =>
        refine ⟨e, he1, ?_, ?_, ?_⟩ <;> simp [segLoopGo_step, hsc, he2, he3, he4]
      | exc msg =>
        refine ⟨e, he1, ?_, ?_, ?_⟩ <;> simp [segLoopGo_step, hsc, he2, he3, he4]

theorem segLoopGo_success_at (cfg : Config) (script : Nat → Nat → CallOutcome)
    (U : Nat → Nat → ℚ → ℚ) (idx : Nat) :
    ∀ (rem a k : Nat), a ≤ k → k < a + rem →
      (∀ b, a ≤ b → b < k → errOf (script idx b) ≠ none) →
      script idx k = CallOutcome.ok →
      (segLoopGo cfg script U idx a rem).attempts = k - a + 1 ∧
        (segLoopGo cfg script U idx a rem).waits.length = k - a ∧
        (segLoopGo cfg script U idx a rem).post = some cfg.perChunkDelay ∧
        (segLoopGo cfg script U idx a rem).outcome = SegOutcome.success := by
  intro rem
  induction rem using Nat.strong_induction_on with
  | _ rem ih =>
    intro a k hak hkr hfail hok
    match rem, hkr with
    | 0, h => exact absurd h (by omega)
    | 1, _ =>
      have hka : k = a := by omega
      subst hka
      refine ⟨?_, ?_, ?_, ?_⟩ <;> simp [segLoopGo_one, hok]
    | r + 2, _ =>
      by_cases hka : k = a
      · subst hka
        refine ⟨?_, ?_, ?_, ?_⟩ <;> simp [segLoopGo_step, hok]
      · have hlt : a < k := by omega
        have hfa : errOf (script idx a) ≠ none := hfail a le_rfl hlt
        have hrec := ih (r + 1) (by omega) (a + 1) k (by omega) (by omega)
          (fun b hb1 hb2 => hfail b (by omega) hb2) hok
        obtain ⟨h1, h2, h3, h4⟩ := hrec
        cases hsc : script idx a with
        | ok => rw [hsc] at hfa; simp [errOf] at hfa
        | gttsErr msg =>
          refine ⟨?_, ?_, ?_, ?_⟩ <;>
            simp [segLoopGo_step, hsc, h1, h2, h3, h4] <;> omega
        | exc msg =>
          refine ⟨?_, ?_, ?_, ?_⟩ <;>
            simp [segLoopGo_step, hsc, h1, h2, h3, h4] <;> omega

theorem segLoopGo_success_exists (cfg : Config) (script : Nat → Nat → CallOutcome)
    (U : Nat → Nat → ℚ → ℚ) (idx : Nat) :
    ∀ (rem a : Nat),
      (∃ k, a ≤ k ∧ k < a + rem ∧ script idx k = CallOutcome.ok) →
      (segLoopGo cfg script U idx a rem).outcome = SegOutcome.success := by
  intro rem
  induction rem using Nat.strong_induction_on with
  | _ rem ih =>
    intro a hex
    obtain ⟨k, hk1, hk2, hk3⟩ := hex
    match rem, hk2 with
    | 0, h => exact absurd h (by omega)
    | 1, _ =>
      have hka : k = a := by omega
      subst hka
      simp [segLoopGo_one, hk3]
    | r + 2, _ =>
      cases hsc : script idx a with
      | ok => simp [segLoopGo_step, hsc]
      | gttsErr msg =>
        have hne : k ≠ a := by
          intro h0
          subst h0
          rw [hk3] at hsc
          cases hsc
        simp [segLoopGo_step, hsc]
        exact ih (r + 1) (by omega) (a + 1) ⟨k, by omega, by omega, hk3⟩
      | exc msg =>
        have hne : k ≠ a := by
          intro h0
          subst h0
          rw [hk3] at hsc
          cases hsc
        simp [segLoopGo_step, hsc]
        exact ih (r + 1) (by omega) (a + 1) ⟨k, by omega, by omega, hk3⟩

theorem segLoopGo_waits_get (cfg : Config) (script : Nat → Nat → CallOutcome)
    (U : Nat → Nat → ℚ → ℚ) (idx : Nat) :
    ∀ (n rem a : Nat), n < rem →
      (∀ b, a ≤ b → b ≤ a + n → errOf (script idx b) ≠ none) →
      (segLoopGo cfg script U idx a rem).waits.get? n =
        some (backoffWait cfg U idx (a + n) (script idx (a + n))) := by
  intro n
  induction n with
  | zero =>
    intro rem a hn hfail
    have hfa : errOf (script idx a) ≠ none := hfail a le_rfl (by omega)
    match rem, hn with
    | 1, _ =>
      cases hsc : script idx a with
      | ok => rw [hsc] at hfa; simp [errOf] at hfa
      | gttsErr msg => simp [segLoopGo_one, hsc]
      | exc msg => simp [segLoopGo_one, hsc]
    | r + 2, _ =>
      cases hsc : script idx a with
      | ok => rw [hsc] at hfa; simp [errOf] at hfa
      | gttsErr msg => simp [segLoopGo_step, hsc]
      | exc msg => simp [segLoopGo_step, hsc]
  | succ n ih =>
    intro rem a hn hfail
    have hfa : errOf (script idx a) ≠ none := hfail a le_rfl (by omega)
    match rem, hn with
    | r + 2, _ =>
      have hrec := ih (r + 1) (a + 1) (by omega)
        (fun b hb1 hb2 => hfail b (by omega) (by omega))
      have hsh : a + 1 + n = a + (n + 1) := by omega
      rw [hsh] at hrec
      cases hsc : script idx a with
      | ok => rw [hsc] at hfa; simp [errOf] at hfa
      | gttsErr msg =>
        simp only [segLoopGo_step, hsc]
        simpa using hrec
      | exc msg =>
        simp only [segLoopGo_step, hsc]
        simpa using hrec

theorem segLoopGo_U_indep (cfg : Config) (script : Nat → Nat → CallOutcome)
    (U U' : Nat → Nat → ℚ → ℚ) (idx : Nat) :
    ∀ (rem a : Nat),
      (segLoopGo cfg script U idx a rem).attempts =
          (segLoopGo cfg script U' idx a rem).attempts ∧
        (segLoopGo cfg script U idx a rem).post =
          (segLoopGo cfg script U' idx a rem).post ∧
        (segLoopGo cfg script U idx a rem).outcome =
          (segLoopGo cfg script U' idx a rem).outcome ∧
        (segLoopGo cfg script U idx a rem).waits.length =
          (segLoopGo cfg script U' idx a rem).waits.length := by
  intro rem
  induction rem using Nat.strong_induction_on with
  | _ rem ih =>
    intro a
    match rem with
    | 0 => exact ⟨rfl, rfl, rfl, rfl⟩
    | 1 =>
      cases hsc : script idx a <;>
        refine ⟨?_, ?_, ?_, ?_⟩ <;> simp [segLoopGo_one, hsc]
    | r + 2 =>
      obtain ⟨h1, h2, h3, h4⟩ := ih (r + 1) (by omega) (a + 1)
      cases hsc : script idx a <;>
        refine ⟨?_, ?_, ?_, ?_⟩ <;> simp [segLoopGo_step, hsc, h1, h2, h3, h4]

/-! ### Behaviour of the outer segment loop -/

theorem goParts_cons (cfg : Config) (script : Nat → Nat → CallOutcome)
    (U : Nat → Nat → ℚ → ℚ) (idx : Nat) (p : List Char) (ps : List (List Char)) :
    goParts cfg script U idx (p :: ps) =
      match (segLoop cfg script U idx).outcome with
      | SegOutcome.success =>
        (segLoop cfg script U idx :: (goParts cfg script U (idx + 1) ps).1,
          ((goParts cfg script U (idx + 1) ps).2).map (fun l => idx :: l))
      | SegOutcome.exhausted e =>
        ([segLoop cfg script U idx], Except.error ⟨idx, cfg.retries, e⟩)
      | SegOutcome.skipped =>
        (segLoop cfg script U idx :: (goParts cfg script U (idx + 1) ps).1,
          (goParts cfg script U (idx + 1) ps).2) := rfl

theorem goParts_ok (cfg : Config) (script : Nat → Nat → CallOutcome)
    (U : Nat → Nat → ℚ → ℚ) (hr : 1 ≤ cfg.retries) :
    ∀ (parts : List (List Char)) (idx : Nat) (l : List Nat),
      (goParts cfg script U idx parts).2 = Except.ok l →
      l = List.range' idx parts.length := by
  intro parts
  induction parts with
  | nil =>
    intro idx l h
    rw [show (goParts cfg script U idx []).2 = Except.ok [] from rfl] at h
    injection h with h
    subst h
    rfl
  | cons p ps ih =>
    intro idx l h
    rw [goParts_cons] at h
    cases houtc : (segLoop cfg script U idx).outcome with
    | success =>
      rw [houtc] at h
      simp only [] at h
      cases hrec : (goParts cfg script U (idx + 1) ps).2 with
      | ok l' =>
        rw [hrec] at h
        simp [Except.map] at h
        subst h
        rw [ih (idx + 1) l' hrec]
        rw [List.length_cons, List.range'_succ]
      | error e =>
        rw [hrec] at h
        simp [Except.map] at h
    | exhausted e =>
      rw [houtc] at h
      simp at h
    | skipped =>
      exact absurd houtc
        (segLoopGo_not_skipped cfg script U idx cfg.retries 1 hr)

theorem goParts_error (cfg : Config) (script : Nat → Nat → CallOutcome)
    (U : Nat → Nat → ℚ → ℚ) (hr : 1 ≤ cfg.retries) :
    ∀ (parts : List (List Char)) (idx0 : Nat),
      (∃ j, j < parts.length ∧
        ∀ b, 1 ≤ b → b ≤ cfg.retries → errOf (script (idx0 + j) b) ≠ none) →
      ∃ e : BatchError, (goParts cfg script U idx0 parts).2 = Except.error e ∧
        e.retries = cfg.retries ∧
        idx0 ≤ e.idx ∧ e.idx < idx0 + parts.length ∧
        (∀ b, 1 ≤ b → b ≤ cfg.retries → errOf (script e.idx b) ≠ none) ∧
        errOf (script e.idx cfg.retries) = some e.lastErr := by
  intro parts
  induction parts with
  | nil =>
    intro idx0 hex
    obtain ⟨j, hj, _⟩ := hex
    simp at hj
  | cons p ps ih =>
    intro idx0 hex
    by_cases hall : ∀ b, 1 ≤ b → b ≤ cfg.retries → errOf (script idx0 b) ≠ none
    · obtain ⟨e, he1, he2, _, _⟩ :=
        segLoopGo_all_fail cfg script U idx0 cfg.retries 1 hr
          (fun b hb1 hb2 => hall b hb1 (by omega))
      have hidx : 1 + cfg.retries - 1 = cfg.retries := by omega
      rw [hidx] at he1
      have he2' : (segLoop cfg script U idx0).outcome = SegOutcome.exhausted e := he2
      refine ⟨⟨idx0, cfg.retries, e⟩, ?_, rfl, le_rfl, by simp, hall, he1⟩
      rw [goParts_cons, he2']
    · push_neg at hall
      obtain ⟨b, hb1, hb2, hb3⟩ := hall
      have hok : script idx0 b = CallOutcome.ok := errOf_eq_none.1 (by tauto)
      have hsucc : (segLoop cfg script U idx0).outcome = SegOutcome.success :=
        segLoopGo_success_exists cfg script U idx0 cfg.retries 1
          ⟨b, by omega, by omega, hok⟩
      obtain ⟨j, hj, hjf⟩ := hex
      have hj0 : j ≠ 0 := by
        intro h0
        subst h0
        rw [Nat.add_zero] at hjf
        exact hjf b hb1 hb2 hb3
      have hrec := ih (idx0 + 1)
        ⟨j - 1, by simp at hj ⊢; omega,
          by
            have : idx0 + 1 + (j - 1) = idx0 + j := by omega
            rw [this]
            exact hjf⟩
      obtain ⟨e, he1, he2, he3, he4, he5, he6⟩ := hrec
      refine ⟨e, ?_, he2, by omega, by simp at he4 ⊢; omega, he5, he6⟩
      rw [goParts_cons, hsucc]
      simp only []
      rw [he1]
      rfl

theorem goParts_U_indep (cfg : Config) (script : Nat → Nat → CallOutcome)
    (U U' : Nat → Nat → ℚ → ℚ) :
    ∀ (parts : List (List Char)) (idx : Nat),
      (goParts cfg script U idx parts).2 = (goParts cfg script U' idx parts).2 ∧
        (goParts cfg script U idx parts).1.map SegTrace.attempts =
          (goParts cfg script U' idx parts).1.map SegTrace.attempts ∧
        (goParts cfg script U idx parts).1.map SegTrace.outcome =
          (goParts cfg script U' idx parts).1.map SegTrace.outcome := by
  intro parts
  induction parts with
  | nil => intro idx; exact ⟨rfl, rfl, rfl⟩
  | cons p ps ih =>
    intro idx
    obtain ⟨ha, hp, ho, hw⟩ := segLoopGo_U_indep cfg script U U' idx cfg.retries 1
    obtain ⟨ih1, ih2, ih3⟩ := ih (idx + 1)
    have ho' : (segLoop cfg script U idx).outcome = (segLoop cfg script U' idx).outcome := ho
    have ha' : (segLoop cfg script U idx).attempts = (segLoop cfg script U' idx).attempts := ha
    cases houtc : (segLoop cfg script U' idx).outcome with
    | success =>
      rw [goParts_cons, goParts_cons, ho', houtc]
      refine ⟨?_, ?_, ?_⟩ <;> simp [ih1, ih2, ih3, ha', ho', houtc]
    | exhausted e =>
      rw [goParts_cons, goParts_cons, ho', houtc]
      refine ⟨rfl, ?_, ?_⟩ <;> simp [ha', ho', houtc]
    | skipped =>
      rw [goParts_cons, goParts_cons, ho', houtc]
      refine ⟨?_, ?_, ?_⟩ <;> simp [ih1, ih2, ih3, ha', ho', houtc]

/-! ### The synthesizer claims -/

/-- Claim C2: for every segment list and scripted outcomes in which some
segment fails on all of its `retries` attempts (`retries ≥ 1`, so that
attempts exist), `generate_gtts_parts`'s segment loop aborts as a whole
with a `RuntimeError` that carries the index of a segment that failed all
its attempts, the configured retry count, and the error of that segment's
last attempt; no output list is returned. -/
theorem claim2_exhaustion_aborts (cfg : Config) (script : Nat → Nat → CallOutcome)
    (U : Nat → Nat → ℚ → ℚ) (parts : List (List Char))
    (hr : 1 ≤ cfg.retries)
    (hfail : ∃ j, j < parts.length ∧
      ∀ b, 1 ≤ b → b ≤ cfg.retries → errOf (script (1 + j) b) ≠ none) :
    ∃ e : BatchError, (goParts cfg script U 1 parts).2 = Except.error e ∧
      (∀ l, (goParts cfg script U 1 parts).2 ≠ Except.ok l) ∧
      e.retries = cfg.retries ∧
      1 ≤ e.idx ∧ e.idx ≤ parts.length ∧
      (∀ b, 1 ≤ b → b ≤ cfg.retries → errOf (script e.idx b) ≠ none) ∧
      errOf (script e.idx cfg.retries) = some e.lastErr := by
  obtain ⟨e, he1, he2, he3, he4, he5, he6⟩ :=
    goParts_error cfg script U hr parts 1 hfail
  refine ⟨e, he1, ?_, he2, he3, by omega, he5, he6⟩
  intro l hcon
  rw [he1] at hcon
  cases hcon

/-- Concrete script that always fails with a rate-limit message. -/
def failScript : Nat → Nat → CallOutcome :=
  fun _ _ => CallOutcome.gttsErr ("429".toList)

/-- Concrete script that always succeeds. -/
def okScript : Nat → Nat → CallOutcome :=
  fun _ _ => CallOutcome.ok

/-- Concrete script: rate-limited failures on attempt 1, success on
attempt 2. -/
def retryScript : Nat → Nat → CallOutcome :=
  fun _ a => if a < 2 then CallOutcome.gttsErr ("429".toList) else CallOutcome.ok

/-- Concrete zero jitter source. -/
def zeroU : Nat → Nat → ℚ → ℚ := fun _ _ _ => 0

/-- Concrete configuration with two retries. -/
def witCfg : Config := ⟨2, 3 / 2, 1, 4 / 5⟩

/-- Witness for C2 at a concrete run: a single segment whose remote call
always fails with HTTP 429. -/
theorem claim2_witness :
    ∃ e : BatchError,
      (goParts witCfg failScript zeroU 1 [("hi".toList)]).2 = Except.error e ∧
      (∀ l, (goParts witCfg failScript zeroU 1 [("hi".toList)]).2 ≠ Except.ok l) ∧
      e.retries = witCfg.retries ∧
      1 ≤ e.idx ∧ e.idx ≤ [("hi".toList)].length ∧
      (∀ b, 1 ≤ b → b ≤ witCfg.retries → errOf (failScript e.idx b) ≠ none) ∧
      errOf (failScript e.idx witCfg.retries) = some e.lastErr :=
  claim2_exhaustion_aborts witCfg failScript zeroU [("hi".toList)] (by decide)
    ⟨0, by decide, fun b _ _ => by simp [failScript, errOf]⟩

/-- Counterexample to Claim C3 as stated: with `retries = 0` the attempt
loop body never runs, so `last_err` stays `None`, nothing is appended, and
`generate_gtts_parts` returns successfully with zero outputs although the
segmenter produced one segment. -/
theorem claim3_counterexample :
    (generate_gtts_parts ⟨0, 3 / 2, 1, 4 / 5⟩ okScript zeroU ("a".toList) 1200).2 =
        Except.ok [] ∧
      (chunk_text_for_tts ("a".toList) 1200).length = 1 := by
  exact ⟨rfl, by decide⟩

/-- Claim C3 (amended): for `retries ≥ 1`, whenever `generate_gtts_parts`
returns successfully it returns exactly one output per segment of the
segmenter, in segment order (output `i` is the file of segment `i`); no
terminal state holds a non-empty proper subset of the outputs. -/
theorem claim3_complete_ordered (cfg : Config) (script : Nat → Nat → CallOutcome)
    (U : Nat → Nat → ℚ → ℚ) (text : List Char) (m : Nat) (l : List Nat)
    (hr : 1 ≤ cfg.retries)
    (hok : (generate_gtts_parts cfg script U text m).2 = Except.ok l) :
    l = List.range' 1 (chunk_text_for_tts text m).length := by
  rw [generate_gtts_parts] at hok
  by_cases ht : text = []
  · rw [if_pos ht] at hok
    injection hok with hok
    subst hok
    rw [chunk_text_for_tts, if_pos ht]
    rfl
  · rw [if_neg ht] at hok
    exact goParts_ok cfg script U hr _ 1 l hok

/-- Witness for the amended C3 at a concrete successful run. -/
theorem claim3_witness :
    1 ≤ (⟨1, 3 / 2, 1, 4 / 5⟩ : Config).retries ∧
      (generate_gtts_parts ⟨1, 3 / 2, 1, 4 / 5⟩ okScript zeroU ("a".toList) 1200).2 =
        Except.ok [1] ∧
      ([1] : List Nat) = List.range' 1 (chunk_text_for_tts ("a".toList) 1200).length :=
  ⟨by decide, rfl,
    claim3_complete_ordered ⟨1, 3 / 2, 1, 4 / 5⟩ okScript zeroU ("a".toList) 1200 [1]
      (by decide) rfl⟩

/-- Claim C6: if the scripted remote call fails with a rate-limit error on
attempts `1..k-1` and succeeds on attempt `k ≤ retries`, the attempt loop
for that segment makes exactly `k` attempts (none after the first success),
ends in success with the post-success delay, and the driver records exactly
one output (`idx`) for the segment and continues with the next segment. -/
theorem claim6_retry_then_success (cfg : Config) (script : Nat → Nat → CallOutcome)
    (U : Nat → Nat → ℚ → ℚ) (idx k : Nat) (p : List Char) (ps : List (List Char))
    (hk1 : 1 ≤ k) (hk2 : k ≤ cfg.retries)
    (hfail : ∀ b, 1 ≤ b → b < k →
      ∃ msg, script idx b = CallOutcome.gttsErr msg ∧ isRateLimitMsg msg = true)
    (hok : script idx k = CallOutcome.ok) :
    (segLoop cfg script U idx).attempts = k ∧
      (segLoop cfg script U idx).outcome = SegOutcome.success ∧
      (segLoop cfg script U idx).post = some cfg.perChunkDelay ∧
      goParts cfg script U idx (p :: ps) =
        (segLoop cfg script U idx :: (goParts cfg script U (idx + 1) ps).1,
          ((goParts cfg script U (idx + 1) ps).2).map (fun l => idx :: l)) := by
  have hfail' : ∀ b, 1 ≤ b → b < k → errOf (script idx b) ≠ none := by
    intro b hb1 hb2
    obtain ⟨msg, hmsg, _⟩ := hfail b hb1 hb2
    rw [hmsg]
    simp [errOf]
  obtain ⟨h1, h2, h3, h4⟩ :=
    segLoopGo_success_at cfg script U idx cfg.retries 1 k hk1 (by omega) hfail' hok
  have h1' : (segLoop cfg script U idx).attempts = k := by
    rw [segLoop, h1]
    omega
  have h4' : (segLoop cfg script U idx).outcome = SegOutcome.success := h4
  refine ⟨h1', h4', h3, ?_⟩
  rw [goParts_cons, h4']

/-- Witness for C6: one rate-limited failure then success on attempt 2. -/
theorem claim6_witness :
    (segLoop ⟨3, 3 / 2, 1, 4 / 5⟩ retryScript zeroU 1).attempts = 2 ∧
      (segLoop ⟨3, 3 / 2, 1, 4 / 5⟩ retryScript zeroU 1).outcome = SegOutcome.success ∧
      goParts ⟨3, 3 / 2, 1, 4 / 5⟩ retryScript zeroU 1 [("hi".toList)] =
        (segLoop ⟨3, 3 / 2, 1, 4 / 5⟩ retryScript zeroU 1 ::
            (goParts ⟨3, 3 / 2, 1, 4 / 5⟩ retryScript zeroU 2 []).1,
          ((goParts ⟨3, 3 / 2, 1, 4 / 5⟩ retryScript zeroU 2 []).2).map
            (fun l => 1 :: l)) := by
  obtain ⟨h1, h2, h3, h4⟩ :=
    claim6_retry_then_success ⟨3, 3 / 2, 1, 4 / 5⟩ retryScript zeroU 1 2
      ("hi".toList) [] (by decide) (by decide)
      (fun b hb1 hb2 => ⟨"429".toList, by
        have : b = 1 := by omega
        subst this
        exact ⟨rfl, by decide⟩⟩)
      rfl
  exact ⟨h1, h2, h4⟩

/-- Claim C7: when attempts `1..a` all fail, the backoff delay recorded for
attempt `a` is `base_pause * 2^a + u` with `u = uniform(0, 2*jitter)` for a
rate-limited `gTTSError`, and `base_pause * 2^(a-1) + u` with
`u = uniform(0, jitter)` for any other failure; with the uniform draw
bounded by its interval and `jitter ≥ 0`, the rate-limited delay lies in
`[base_pause*2^a, base_pause*2^a + 2*jitter]` and the generic delay in
`[base_pause*2^(a-1), base_pause*2^(a-1) + jitter]`. -/
theorem claim7_backoff_formula (cfg : Config) (script : Nat → Nat → CallOutcome)
    (U : Nat → Nat → ℚ → ℚ) (idx a : Nat)
    (hU : ∀ i b hi, 0 ≤ hi → 0 ≤ U i b hi ∧ U i b hi ≤ hi)
    (hj : 0 ≤ cfg.jitter)
    (ha1 : 1 ≤ a) (ha2 : a ≤ cfg.retries)
    (hfail : ∀ b, 1 ≤ b → b ≤ a → errOf (script idx b) ≠ none) :
    ∃ w, ((segLoop cfg script U idx).waits).get? (a - 1) = some w ∧
      w = backoffWait cfg U idx a (script idx a) ∧
      (∀ msg, script idx a = CallOutcome.gttsErr msg → isRateLimitMsg msg = true →
        cfg.basePause * 2 ^ a ≤ w ∧ w ≤ cfg.basePause * 2 ^ a + 2 * cfg.jitter) ∧
      (∀ msg, script idx a = CallOutcome.gttsErr msg → isRateLimitMsg msg = false →
        cfg.basePause * 2 ^ (a - 1) ≤ w ∧ w ≤ cfg.basePause * 2 ^ (a - 1) + cfg.jitter) ∧
      (∀ msg, script idx a = CallOutcome.exc msg →
        cfg.basePause * 2 ^ (a - 1) ≤ w ∧ w ≤ cfg.basePause * 2 ^ (a - 1) + cfg.jitter) := by
  have hget := segLoopGo_waits_get cfg script U idx (a - 1) cfg.retries 1
    (by omega)
    (by
      intro b hb1 hb2
      exact hfail b hb1 (by omega))
  have hsh : 1 + (a - 1) = a := by omega
  rw [hsh] at hget
  refine ⟨backoffWait cfg U idx a (script idx a), hget, rfl, ?_, ?_, ?_⟩
  · intro msg hmsg hrl
    rw [hmsg, backoffWait, if_pos hrl]
    obtain ⟨hu1, hu2⟩ := hU idx a (cfg.jitter * 2) (by linarith)
    constructor <;> linarith
  · intro msg hmsg hrl
    rw [hmsg, backoffWait, if_neg (by simp [hrl])]
    obtain ⟨hu1, hu2⟩ := hU idx a cfg.jitter hj
    constructor <;> linarith
  · intro msg hmsg
    rw [hmsg, backoffWait]
    obtain ⟨hu1, hu2⟩ := hU idx a cfg.jitter hj
    constructor <;> linarith

/-- Witness for C7: a rate-limited first attempt with zero jitter draw. -/
theorem claim7_witness :
    ∃ w, ((segLoop witCfg failScript zeroU 1).waits).get? 0 = some w ∧
      w = backoffWait witCfg zeroU 1 1 (failScript 1 1) ∧
      (∀ msg, failScript 1 1 = CallOutcome.gttsErr msg → isRateLimitMsg msg = true →
        witCfg.basePause * 2 ^ 1 ≤ w ∧ w ≤ witCfg.basePause * 2 ^ 1 + 2 * witCfg.jitter) ∧
      (∀ msg, failScript 1 1 = CallOutcome.gttsErr msg → isRateLimitMsg msg = false →
        witCfg.basePause * 2 ^ 0 ≤ w ∧ w ≤ witCfg.basePause * 2 ^ 0 + witCfg.jitter) ∧
      (∀ msg, failScript 1 1 = CallOutcome.exc msg →
        witCfg.basePause * 2 ^ 0 ≤ w ∧ w ≤ witCfg.basePause * 2 ^ 0 + witCfg.jitter) :=
  claim7_backoff_formula witCfg failScript zeroU 1 1
    (fun i b hi h => ⟨le_rfl, h⟩) (by norm_num [witCfg]) le_rfl (by decide)
    (fun b hb1 hb2 => by simp [failScript, errOf])

/-- Claim C9: two runs of `generate_gtts_parts` with the same scripted
remote outcomes but different jitter draws produce the same result — the
same success-or-failure outcome with the same outputs or the same raised
error, the same per-segment attempt counts, and the same per-segment loop
outcomes; the jitter affects only the waiting delays. -/
theorem claim9_jitter_independence (cfg : Config) (script : Nat → Nat → CallOutcome)
    (U U' : Nat → Nat → ℚ → ℚ) (text : List Char) (m : Nat) :
    (generate_gtts_parts cfg script U text m).2 =
        (generate_gtts_parts cfg script U' text m).2 ∧
      (generate_gtts_parts cfg script U text m).1.map SegTrace.attempts =
        (generate_gtts_parts cfg script U' text m).1.map SegTrace.attempts ∧
      (generate_gtts_parts cfg script U text m).1.map SegTrace.outcome =
        (generate_gtts_parts cfg script U' text m).1.map SegTrace.outcome := by
  by_cases ht : text = []
  · simp only [generate_gtts_parts, if_pos ht]
    exact ⟨trivial, trivial, trivial⟩
  · simp only [generate_gtts_parts, if_neg ht]
    exact goParts_U_indep cfg script U U' (chunk_text_for_tts text m) 1
